import Mathlib

/-!
# tsh: the job-control core of a tiny shell

A shallow embedding of `src/tsh.c` and theorems about it.

Conventions of the embedding.

* The job list `struct job_t jobs[MAXJOBS]` is the list of its slots in index
  order, together with the global `nextjid` (`JobTable`).  Every loop
  `for (i = 0; i < MAXJOBS; i++)` of the source scans that list front to back;
  `firstIdx` is the shared shape "first index `i` whose slot satisfies the
  test", and a pointer `&jobs[i]` is the index `i`.
* `int` and `pid_t` values are integers.  Signed overflow is undefined in C
  and is not modelled: the arithmetic of the source (`nextjid++`,
  `maxjid(jobs)+1`, `-pid`) is exact.
* `printf`, `write`, `sigprocmask`, `fork`, `kill` and the call of `addjob` in
  `eval` are recorded as a list of `Action`s in program order; standard output
  is one stream.
* What the operating system answers (`fork`, `waitpid`) is an argument of the
  function that asks.
* `exit`, a null-pointer dereference and the forked child are results of
  their own (`Outcome`).
* A C string is the text before its terminator; a buffer holds what is copied
  into it, so the capacities `MAXLINE` and `MAXARGS` are not modelled, and
  `parseline` is given a line of at least one character (as `fgets` reads it).
* The main flow and the handler of SIGCHLD share the job list.  A call of
  `eval` runs up to its return or up to the loop of `waitfg`; the handler
  runs between such calls and while `waitfg` sleeps (`Reach`).
-/

namespace Tsh

/-! ## Constants and data -/

/-- Job state `UNDEF`: undefined. -/
abbrev UNDEF : Int := 0

/-- Job state `FG`: running in foreground. -/
abbrev FG : Int := 1

/-- Job state `BG`: running in background. -/
abbrev BG : Int := 2

/-- Job state `ST`: stopped. -/
abbrev ST : Int := 3

/-- Max jobs at any point in time. -/
abbrev MAXJOBS : Nat := 16

/-- The job struct. -/
structure job_t where
  pid : Int
  jid : Int
  state : Int
  cmdline : String
deriving DecidableEq, Repr

/-- The job list `jobs` and the global `nextjid`. -/
structure JobTable where
  jobs : List job_t
  nextjid : Int
deriving DecidableEq, Repr

/-- The signals the shell names. -/
inductive Sig where
  | SIGINT
  | SIGTSTP
  | SIGCONT
  | SIGCHLD
deriving DecidableEq, Repr

/-- Observable actions of the shell process, in program order. -/
inductive Action where
  /-- Text sent to standard output by `printf` or `write`. -/
  | print (s : String)
  /-- The call `sigprocmask(SIG_BLOCK, &mask, NULL)`, mask = SIGINT, SIGCHLD, SIGTSTP. -/
  | sigblock
  /-- The call `sigprocmask(SIG_UNBLOCK, &mask, NULL)` with the same mask. -/
  | sigunblock
  /-- The call `fork()` and the value it returned. -/
  | fork (pid : Int)
  /-- The call `addjob(jobs, pid, state, cmdline)` of `eval` and the value it returned. -/
  | addjob (pid state ret : Int)
  /-- The call `kill(pid, sig)`. -/
  | kill (pid : Int) (sig : Sig)
  /-- The call `unix_error(msg)`, which prints the message and exits. -/
  | unix_error (msg : String)
deriving DecidableEq, Repr

/-- How a call ends: it returns, the process exits, the process dereferences a
null pointer, or control is in the forked child (which never returns to the
caller: `execve` or `exit(0)`). -/
inductive Outcome (α : Type) where
  | ret (a : α)
  | exited (code : Int)
  | fault
  | child
deriving DecidableEq, Repr

/-- The decoded wait status: `WIFSIGNALED` with `WTERMSIG`, `WIFSTOPPED` with
`WSTOPSIG`, `WIFEXITED`, or none of the three. -/
inductive Status where
  | signaled (sig : Int)
  | stopped (sig : Int)
  | exited (code : Int)
  | other
deriving DecidableEq, Repr

/-- Where the main flow is once a call has gone as far as it can without a
signal handler running: back in the caller (`done`), or inside the loop of
`waitfg(pid)` with `j = &jobs[i]`. -/
inductive Ctl where
  | done
  | waiting (i : Nat) (pid : Int)
deriving DecidableEq, Repr

/-- The conversion `%d` of `printf`. -/
def fmtd (n : Int) : String := toString n

/-! ## Helper routines that manipulate the job list -/

/-- First index whose slot passes the test: `for (i = 0; i < MAXJOBS; i++) if (test(jobs[i])) ...`. -/
def firstIdx (p : job_t → Bool) : List job_t → Option Nat
  | [] => none
  | j :: js => if p j then some 0 else (firstIdx p js).map (fun i => i + 1)

/-- Write through a pointer `&jobs[i]`: slot `i` becomes `f` of itself. -/
def updateSlot (f : job_t → job_t) : Nat → List job_t → List job_t
  | _, [] => []
  | 0, j :: js => f j :: js
  | i + 1, j :: js => j :: updateSlot f i js

/-- Clear the entries in a job struct. -/
def clearjob (job : job_t) : job_t :=
  { job with pid := 0, jid := 0, state := UNDEF, cmdline := "" }

/-- Initialize the job list. -/
def initjobs (jobs : List job_t) : List job_t :=
  jobs.map clearjob

/-- The table as `main` has it after `initjobs(jobs)`: the zero-initialised
array cleared, and `nextjid = 1`. -/
def initial : JobTable :=
  { jobs := initjobs (List.replicate MAXJOBS { pid := 0, jid := 0, state := 0, cmdline := "" }),
    nextjid := 1 }

/-- Returns largest allocated job ID. -/
def maxjid (jobs : List job_t) : Int :=
  jobs.foldl (fun max j => if j.jid > max then j.jid else max) 0

/-- Add a job to the job list: the return value, the table afterwards and
what was printed. -/
def addjob (verbose : Bool) (t : JobTable) (pid state : Int) (cmdline : String) :
    Int × JobTable × List Action :=
  if pid < 1 then (0, t, [])
  else
    match firstIdx (fun j => j.pid == 0) t.jobs with
    | some i =>
      let nextjid1 := t.nextjid + 1
      let jobs1 := updateSlot
        (fun j => { j with pid := pid, state := state, jid := t.nextjid, cmdline := cmdline }) i t.jobs
      (1, { jobs := jobs1, nextjid := if nextjid1 > (MAXJOBS : Int) then 1 else nextjid1 },
        if verbose then
          [Action.print ("Added job. [" ++ fmtd t.nextjid ++ "] " ++ fmtd pid ++ " " ++ cmdline ++ "\n")]
        else [])
    | none => (0, t, [Action.print "Tried to create too many jobs\n"])

/-- Delete a job whose PID=pid from the job list: the return value and the
table afterwards. -/
def deletejob (t : JobTable) (pid : Int) : Int × JobTable :=
  if pid < 1 then (0, t)
  else
    match firstIdx (fun j => j.pid == pid) t.jobs with
    | some i =>
      let jobs1 := updateSlot clearjob i t.jobs
      (1, { jobs := jobs1, nextjid := maxjid jobs1 + 1 })
    | none => (0, t)

/-- Return PID of current foreground job, 0 if no such job. -/
def fgpid (jobs : List job_t) : Int :=
  match jobs with
  | [] => 0
  | j :: js => if j.state = FG then j.pid else fgpid js

/-- Find a job (by PID) on the job list: the index of the slot, `none` for `NULL`. -/
def getjobpid (jobs : List job_t) (pid : Int) : Option Nat :=
  if pid < 1 then none else firstIdx (fun j => j.pid == pid) jobs

/-- Find a job (by JID) on the job list: the index of the slot, `none` for `NULL`. -/
def getjobjid (jobs : List job_t) (jid : Int) : Option Nat :=
  if jid < 1 then none else firstIdx (fun j => j.jid == jid) jobs

/-- Map process ID to job ID. -/
def pid2jid (t : JobTable) (pid : Int) : Int :=
  if pid < 1 then 0
  else
    match firstIdx (fun j => j.pid == pid) t.jobs with
    | some i =>
      match t.jobs[i]? with
      | some j => j.jid
      | none => 0
    | none => 0

/-- The state label `listjobs` prints for slot `i`. -/
def stateLabel (i : Nat) (state : Int) : String :=
  if state = BG then "Running    "
  else if state = FG then "Foreground "
  else if state = ST then "Stopped    "
  else "listjobs: Internal error: job[" ++ fmtd i ++ "].state=" ++ fmtd state ++ " "

/-- The loop of `listjobs` from slot `i` on: three writes per slot with `pid != 0`. -/
def listjobsFrom (i : Nat) : List job_t → List Action
  | [] => []
  | j :: js =>
    (if j.pid ≠ 0 then
      [Action.print ("(" ++ fmtd j.jid ++ ") (" ++ fmtd j.pid ++ ") "),
       Action.print (stateLabel i j.state),
       Action.print j.cmdline]
     else []) ++ listjobsFrom (i + 1) js

/-- Print the job list (on standard output; every `write` succeeds). -/
def listjobs (jobs : List job_t) : List Action :=
  listjobsFrom 0 jobs

/-! ## The C library -/

/-- The C library `isspace` in the "C" locale. -/
def isspace (c : Char) : Bool :=
  c = ' ' || c.toNat = 9 || c.toNat = 10 || c.toNat = 11 || c.toNat = 12 || c.toNat = 13

/-- The digit loop of `atoi`: accumulate decimal digits, stop at the first other character. -/
def atoiDigits (acc : Int) : List Char → Int
  | [] => acc
  | c :: cs => if c.isDigit then atoiDigits (acc * 10 + ((c.toNat : Int) - 48)) cs else acc

/-- The C library `atoi`: skip white space, read an optional sign, then decimal
digits; 0 when there is no digit.  (A value outside `int` is undefined in C;
here it is the exact integer.) -/
def atoi (s : List Char) : Int :=
  match s.dropWhile isspace with
  | '-' :: cs => - atoiDigits 0 cs
  | '+' :: cs => atoiDigits 0 cs
  | cs => atoiDigits 0 cs

/-- The C library `strchr(buf, c)`: the characters before the first `c` and
the characters after it, `none` for `NULL`. -/
def strchr (c : Char) : List Char → Option (List Char × List Char)
  | [] => none
  | x :: xs =>
    if x = c then some ([], xs)
    else (strchr c xs).map (fun r => (x :: r.1, r.2))

/-! ## The command line -/

/-- The loop `while (*buf && (*buf == ' ')) buf++`. -/
def skipSpaces : List Char → List Char
  | [] => []
  | c :: cs => if c = ' ' then skipSpaces cs else c :: cs

/-- The delimiter search of `parseline` at `buf`: after an opening single
quote the next single quote, else the next space.  The result is the argument
and the text after the delimiter. -/
def findDelim (buf : List Char) : Option (List Char × List Char) :=
  match buf with
  | [] => strchr ' ' []
  | c :: cs => if c.toNat = 39 then strchr c cs else strchr ' ' (c :: cs)

/-- The loop `while (delim)` of `parseline`: the arguments stored in `argv`.
The first argument bounds the number of iterations. -/
def parseArgs : Nat → List Char → List String
  | 0, _ => []
  | fuel + 1, buf =>
    match findDelim buf with
    | none => []
    | some (arg, rest) => String.mk arg :: parseArgs fuel (skipSpaces rest)

/-- Parse the command line and build the argv array: the return value (true
for a BG job) and `argv` up to its `NULL`. -/
def parseline (cmdline : String) : Bool × List String :=
  let buf := skipSpaces (cmdline.data.dropLast ++ [' '])
  let argv := parseArgs (buf.length + 1) buf
  match argv.getLast? with
  | none => (true, [])
  | some last =>
    if last.data.head? = some '&' then (true, argv.dropLast) else (false, argv)

/-! ## The shell -/

/-- The start of `waitfg(pid)`: `j = getjobpid(jobs, pid)`, return at once when
`j` is `NULL`, else enter the loop. -/
def waitfg (t : JobTable) (pid : Int) : Ctl :=
  match getjobpid t.jobs pid with
  | none => Ctl.done
  | some i => Ctl.waiting i pid

/-- The loop test of `waitfg`: `j->pid == pid && j->state == FG` with `j = &jobs[i]`. -/
def waitfgTest (t : JobTable) (i : Nat) (pid : Int) : Bool :=
  match t.jobs[i]? with
  | some j => j.pid == pid && j.state == FG
  | none => false

/-- One evaluation of the loop test of `waitfg`: sleep on, or leave the loop
(printing when `verbose`) and return. -/
def waitfgPoll (verbose : Bool) (t : JobTable) (i : Nat) (pid : Int) : Ctl × List Action :=
  if waitfgTest t i pid then (Ctl.waiting i pid, [])
  else
    (Ctl.done,
      if verbose then
        [Action.print ("waitfg: Process (" ++ fmtd pid ++ ") no longer the fg process:q\n")]
      else [])

/-- The lookup of `bg` and `fg`: a target that starts with `%` is a jid for
`getjobjid`, any other a pid for `getjobpid`; the job found (`none` for
`NULL`) and what was printed. -/
def lookupTarget (t : JobTable) (arg : String) : Option Nat × List Action :=
  if arg.data.head? = some '%' then
    match getjobjid t.jobs (atoi (arg.data.drop 1)) with
    | none => (none, [Action.print (arg ++ " : No such job\n")])
    | some i => (some i, [])
  else
    match getjobpid t.jobs (atoi arg.data) with
    | none => (none, [Action.print ("(" ++ fmtd (atoi arg.data) ++ ") : No such process\n")])
    | some i => (some i, [])

/-- The built-in commands.  A return carries the return value, the table and
where the main flow is (`fg` ends inside `waitfg`).  Reading `argv[1][0]` when
`argv[1]` is `NULL`, and writing `j->state` when `j` is `NULL`, are faults. -/
def builtin_cmd (t : JobTable) (argv : List String) :
    Outcome (Int × JobTable × Ctl) × List Action :=
  match argv with
  | [] => (Outcome.fault, [])
  | cmd :: rest =>
    if cmd = "quit" then (Outcome.exited 0, [])
    else if cmd = "jobs" then (Outcome.ret (1, t, Ctl.done), listjobs t.jobs)
    else if cmd = "&" then (Outcome.ret (1, t, Ctl.done), [])
    else if cmd = "bg" ∨ cmd = "fg" then
      match rest.head? with
      | none => (Outcome.fault, [])
      | some arg =>
        match lookupTarget t arg with
        | (none, out) => (Outcome.fault, out)
        | (some i, out) =>
          match t.jobs[i]? with
          | none => (Outcome.fault, out)
          | some j =>
            if cmd = "bg" then
              let t1 : JobTable :=
                { t with jobs := updateSlot (fun x => { x with state := BG }) i t.jobs }
              (Outcome.ret (1, t1, Ctl.done),
                out ++ [Action.print ("[" ++ fmtd j.jid ++ "] (" ++ fmtd j.pid ++ ") " ++ j.cmdline),
                        Action.kill (- j.pid) Sig.SIGCONT])
            else
              let t1 : JobTable :=
                { t with jobs := updateSlot (fun x => { x with state := FG }) i t.jobs }
              (Outcome.ret (1, t1, waitfg t1 j.pid), out ++ [Action.kill (- j.pid) Sig.SIGCONT])
    else (Outcome.ret (0, t, Ctl.done), [])

/-- Evaluate the command line that the user has just typed in.  The last
argument is the value `fork()` returns, should it be called. -/
def eval (verbose : Bool) (t : JobTable) (cmdline : String) (forked : Int) :
    Outcome (JobTable × Ctl) × List Action :=
  let parsed := parseline cmdline
  match parsed.2 with
  | [] => (Outcome.ret (t, Ctl.done), [])
  | _ :: _ =>
    match builtin_cmd t parsed.2 with
    | (Outcome.exited c, out) => (Outcome.exited c, out)
    | (Outcome.fault, out) => (Outcome.fault, out)
    | (Outcome.child, out) => (Outcome.child, out)
    | (Outcome.ret (r, t1, ctl), out) =>
      if r ≠ 0 then (Outcome.ret (t1, ctl), out)
      else if forked < 0 then
        (Outcome.exited 1, out ++ [Action.sigblock, Action.fork forked, Action.unix_error "fork error"])
      else if forked = 0 then
        (Outcome.child, out ++ [Action.sigblock, Action.fork forked])
      else if parsed.1 = false then
        let a := addjob verbose t1 forked FG cmdline
        (Outcome.ret (a.2.1, waitfg a.2.1 forked),
          out ++ [Action.sigblock, Action.fork forked, Action.addjob forked FG a.1] ++ a.2.2 ++
            [Action.sigunblock])
      else
        let a := addjob verbose t1 forked BG cmdline
        (Outcome.ret (a.2.1, Ctl.done),
          out ++ [Action.sigblock, Action.fork forked, Action.addjob forked BG a.1] ++ a.2.2 ++
            [Action.sigunblock,
             Action.print ("(" ++ fmtd (pid2jid a.2.1 forked) ++ ") (" ++ fmtd forked ++ ") " ++ cmdline)])

/-! ## Signal handlers -/

/-- The body of the loop of `sigchld_handler` for one child `pid > 0` and its status. -/
def reapOne (t : JobTable) (pid : Int) (status : Status) : Outcome JobTable × List Action :=
  match status with
  | Status.signaled sig =>
    (Outcome.ret (deletejob t pid).2,
      [Action.print ("Job [" ++ fmtd (pid2jid t pid) ++ "] (" ++ fmtd pid ++
        ") terminated by signal " ++ fmtd sig ++ "\n")])
  | Status.stopped sig =>
    match getjobpid t.jobs pid with
    | none => (Outcome.fault, [])
    | some i =>
      let t1 : JobTable := { t with jobs := updateSlot (fun x => { x with state := ST }) i t.jobs }
      (Outcome.ret t1,
        [Action.print ("Job [" ++ fmtd (pid2jid t1 pid) ++ "] (" ++ fmtd pid ++
          ") stopped by signal " ++ fmtd sig ++ "\n")])
  | Status.exited _ => (Outcome.ret (deletejob t pid).2, [])
  | Status.other => (Outcome.ret t, [])

/-- The handler of SIGCHLD.  The list is what the successive calls
`waitpid(-1, &status, WUNTRACED|WNOHANG)` return; at its end `waitpid` returns
a value that is not positive. -/
def sigchld_handler (t : JobTable) : List (Int × Status) → Outcome JobTable × List Action
  | [] => (Outcome.ret t, [])
  | (pid, status) :: pending =>
    if pid > 0 then
      match reapOne t pid status with
      | (Outcome.ret t1, out) =>
        let r := sigchld_handler t1 pending
        (r.1, out ++ r.2)
      | (Outcome.exited c, out) => (Outcome.exited c, out)
      | (Outcome.fault, out) => (Outcome.fault, out)
      | (Outcome.child, out) => (Outcome.child, out)
    else (Outcome.ret t, [])

/-- The handler of SIGINT: send it along to the foreground job. -/
def sigint_handler (t : JobTable) : List Action :=
  if fgpid t.jobs > 0 then [Action.kill (- fgpid t.jobs) Sig.SIGINT] else []

/-- The handler of SIGTSTP: suspend the foreground job by sending it a SIGTSTP. -/
def sigtstp_handler (t : JobTable) : List Action :=
  if fgpid t.jobs > 0 then [Action.kill (- fgpid t.jobs) Sig.SIGTSTP] else []

/-! ## Sequences of calls and reachable states -/

/-- A call on the job list: `addjob(jobs, pid, state, cmdline)` or `deletejob(jobs, pid)`. -/
inductive Op where
  | add (pid state : Int) (cmdline : String)
  | del (pid : Int)
deriving DecidableEq, Repr

/-- The return value of one call and the table after it. -/
def step (verbose : Bool) (t : JobTable) : Op → Int × JobTable
  | Op.add pid state cmdline =>
    ((addjob verbose t pid state cmdline).1, (addjob verbose t pid state cmdline).2.1)
  | Op.del pid => deletejob t pid

/-- The table after a sequence of calls. -/
def run (verbose : Bool) (t : JobTable) : List Op → JobTable
  | [] => t
  | op :: ops => run verbose (step verbose t op).2 ops

/-- Every `addjob` of the sequence is given a pid that is at least 1 and that
no slot holds when it is called. -/
def freshAdds (verbose : Bool) (t : JobTable) : List Op → Bool
  | [] => true
  | Op.add pid state cmdline :: ops =>
    decide (1 ≤ pid) && t.jobs.all (fun j => j.pid != pid) &&
      freshAdds verbose (step verbose t (Op.add pid state cmdline)).2 ops
  | Op.del pid :: ops => freshAdds verbose (step verbose t (Op.del pid)).2 ops

/-- Every call of the sequence returns 0. -/
def allFail (verbose : Bool) (t : JobTable) : List Op → Bool
  | [] => true
  | op :: ops => decide ((step verbose t op).1 = 0) && allFail verbose (step verbose t op).2 ops

/-- The jids of the live slots (`pid != 0`), in slot order. -/
def liveJids (jobs : List job_t) : List Int :=
  (jobs.filter (fun j => j.pid != 0)).map (fun j => j.jid)

/-- The number of slots whose state is `FG`. -/
def countFG (jobs : List job_t) : Nat :=
  jobs.countP (fun j => j.state == FG)

/-- The largest jid of a live slot (`pid != 0`), 0 when there is none. -/
def maxLiveJid (jobs : List job_t) : Int :=
  (jobs.filter (fun j => j.pid != 0)).foldl (fun max j => if j.jid > max then j.jid else max) 0

/-- The sequence of calls that fills 15 slots (pids and jids 1 to 15) and then
deletes the job of pid 2, which leaves `nextjid = 16`. -/
def wrapPrefix : List Op :=
  (List.range 15).map (fun n => Op.add ((n : Int) + 1) BG "a\n") ++ [Op.del 2]

/-- A table at capacity: 16 background jobs, pids 1 to 16. -/
def fullTable : JobTable :=
  run false initial ((List.range 16).map (fun n => Op.add ((n : Int) + 1) BG "a\n"))

/-- The states of the shell between its steps, from the initial table: the
table, and where the main flow is.  A step is a whole call of `eval`(a launch
up to the loop of `waitfg`, or a built-in), a run of `sigchld_handler`, or the
return of `waitfg` once its loop test fails.  `fork` returns to the parent a
pid that no slot holds. -/
inductive Reach (verbose : Bool) : JobTable → Ctl → Prop where
  | init : Reach verbose initial Ctl.done
  | eval (t t1 : JobTable) (c : Ctl) (cmdline : String) (forked : Int) (out : List Action) :
      Reach verbose t Ctl.done →
      (∀ j ∈ t.jobs, j.pid ≠ forked) →
      Tsh.eval verbose t cmdline forked = (Outcome.ret (t1, c), out) →
      Reach verbose t1 c
  | reap (t t1 : JobTable) (c : Ctl) (pending : List (Int × Status)) (out : List Action) :
      Reach verbose t c →
      sigchld_handler t pending = (Outcome.ret t1, out) →
      Reach verbose t1 c
  | wake (t : JobTable) (i : Nat) (pid : Int) (out : List Action) :
      Reach verbose t (Ctl.waiting i pid) →
      waitfgPoll verbose t i pid = (Ctl.done, out) →
      Reach verbose t Ctl.done

/-- The table after the foreground launch of `/bin/ls` (pid 5) from the initial table. -/
def launchedTable : JobTable :=
  (addjob false initial 5 FG "/bin/ls\n").2.1

/-- The table `launchedTable` once the reaper has marked the job of pid 5 stopped. -/
def stoppedTable : JobTable :=
  { launchedTable with jobs := updateSlot (fun x => { x with state := ST }) 0 launchedTable.jobs }

/-- The table `stoppedTable` once `fg %1` has put the job of pid 5 back in the foreground. -/
def resumedTable : JobTable :=
  { stoppedTable with jobs := updateSlot (fun x => { x with state := FG }) 0 stoppedTable.jobs }

/-- The pids of the live slots (`pid != 0`), in slot order. -/
def livePids (jobs : List job_t) : List Int :=
  (jobs.filter (fun j => j.pid != 0)).map (fun j => j.pid)

/-! ## The text of the job listing -/

/-- The text a list of actions sends to standard output: what its `print`
actions carry, in order. -/
def outText : List Action → String
  | [] => ""
  | Action.print s :: rest => s ++ outText rest
  | _ :: rest => outText rest

/-- One after the other. -/
def concatText : List String → String
  | [] => ""
  | s :: rest => s ++ concatText rest

/-- The entry of the job listing for slot `i`: `(jid) (pid) `, the state label
and the stored command line. -/
def entryText (i : Nat) (j : job_t) : String :=
  "(" ++ fmtd j.jid ++ ") (" ++ fmtd j.pid ++ ") " ++ stateLabel i j.state ++ j.cmdline

/-- The job listing as the specification words it: in slot order, one entry
per live slot (`pid != 0`), nothing for an empty slot. -/
def listingText (jobs : List job_t) : String :=
  concatText (((List.enum jobs).filter (fun p => p.2.pid != 0)).map (fun p => entryText p.1 p.2))

/-! ## Signals blocked, children registered -/

/-- Whether the job-control signals are blocked after an action, given
whether they were before it. -/
def blockedAfter (blocked : Bool) : Action → Bool
  | Action.sigblock => true
  | Action.sigunblock => false
  | _ => blocked

/-- The forked children not yet in the job list after an action: `fork` adds
the child it returns to the parent, an `addjob` that returns 1 removes its pid. -/
def unregisteredAfter (unregistered : List Int) : Action → List Int
  | Action.fork pid => if pid > 0 then pid :: unregistered else unregistered
  | Action.addjob pid _ ret =>
    if ret = 1 then unregistered.filter (fun p => p != pid) else unregistered
  | _ => unregistered

/-- After no action of the trace are the signals unblocked while a forked
child is not yet registered. -/
def neverExposed (blocked : Bool) (unregistered : List Int) : List Action → Bool
  | [] => true
  | a :: rest =>
    (blockedAfter blocked a || (unregisteredAfter unregistered a).isEmpty) &&
      neverExposed (blockedAfter blocked a) (unregisteredAfter unregistered a) rest

/-! ## Launches up to capacity -/

/-- The pids 1 to 16. -/
def sixteenPids : List Int :=
  (List.range 16).map (fun n => (n : Int) + 1)

/-- The `addjob` calls of the background launches of the line `a &`, one per pid. -/
def bgLaunchOps (pids : List Int) : List Op :=
  pids.map (fun pid => Op.add pid BG "a &\n")

/-- The table after sixteen background launches of the line `a &` (pids 1 to
16) from the initial table: every slot is live. -/
def busyTable : JobTable :=
  run false initial (bgLaunchOps sixteenPids)

/-! ## Two live jobs with one jid -/

/-- The table after fifteen background launches of the line `a &` (pids 1 to
15), the normal exit of the child 2, and the background launches of the
children 16 and 17: the job of pid 1 in slot 0 and the job of pid 17 in slot
15 both carry jid 1. -/
def wrappedTable : JobTable :=
  run false
    (deletejob (run false initial (bgLaunchOps ((List.range 15).map (fun n => (n : Int) + 1)))) 2).2
    (bgLaunchOps [16, 17])

/-- The table `wrappedTable` once the reaper has marked the job of pid 17 stopped. -/
def dupJidTable : JobTable :=
  { wrappedTable with
    jobs := updateSlot (fun x => { x with state := ST }) 15 wrappedTable.jobs }

/-! ## Slot consistency -/

/-- A slot is empty (`pid = 0`, `jid = 0`, `UNDEF`, no command line) or live
(`pid` and `jid` at least 1, state `FG`, `BG` or `ST`). -/
def SlotConsistent (j : job_t) : Prop :=
  (j.pid = 0 ∧ j.jid = 0 ∧ j.state = UNDEF ∧ j.cmdline = "") ∨
  (1 ≤ j.pid ∧ 1 ≤ j.jid ∧ (j.state = FG ∨ j.state = BG ∨ j.state = ST))

/-- The job tables the shell builds: from `initjobs` (with `nextjid = 1`) by
`addjob` with state `FG` or `BG`, by `deletejob`, by a built-in command that
returns (`bg` and `fg` write the state of the job they looked up) and by the
body of the reaper's loop when it returns (`deletejob`, or state `ST` for the
job it looked up). -/
inductive TableReach : JobTable → Prop where
  | init (jobs : List job_t) : TableReach { jobs := initjobs jobs, nextjid := 1 }
  | add (verbose : Bool) (t : JobTable) (pid state : Int) (cmdline : String) :
      TableReach t → (state = FG ∨ state = BG) →
      TableReach (addjob verbose t pid state cmdline).2.1
  | del (t : JobTable) (pid : Int) : TableReach t → TableReach (deletejob t pid).2
  | builtin (t t1 : JobTable) (argv : List String) (r : Int) (c : Ctl) (out : List Action) :
      TableReach t → builtin_cmd t argv = (Outcome.ret (r, t1, c), out) → TableReach t1
  | reap (t t1 : JobTable) (pid : Int) (status : Status) (out : List Action) :
      TableReach t → reapOne t pid status = (Outcome.ret t1, out) → TableReach t1

/-! ## Lines of words -/

/-- A word: not empty, no space in it, no single quote in front. -/
def isWord (w : List Char) : Bool :=
  !w.isEmpty && !w.contains ' ' && w.head? != some (Char.ofNat 39)

/-- Words, each followed by one space and `k` more. -/
def wordsBuf : List (List Char × Nat) → List Char
  | [] => []
  | (w, k) :: rest => w ++ ' ' :: (List.replicate k ' ' ++ wordsBuf rest)

/-- The command line of the given words: `lead` spaces, the words separated by
one or more spaces, spaces after the last word, and the newline in place of
the last space. -/
def wordLine (lead : Nat) (items : List (List Char × Nat)) : String :=
  String.mk ((List.replicate lead ' ' ++ wordsBuf items).dropLast ++ [Char.ofNat 10])

/-! ## Invariants of the reachable states -/

/-- A slot that carries a jid (at least 1) carries a pid (at least 1). -/
def SlotsOK (jobs : List job_t) : Prop :=
  ∀ (k : Nat) (j : job_t), jobs[k]? = some j → 1 ≤ j.jid → 1 ≤ j.pid

/-- No two slots hold the same pid (at least 1). -/
def PidsDistinct (jobs : List job_t) : Prop :=
  ∀ (a b : Nat) (ja jb : job_t),
    jobs[a]? = some ja → jobs[b]? = some jb → 1 ≤ ja.pid → ja.pid = jb.pid → a = b

/-- Outside `waitfg` no slot has state `FG`; inside the loop of `waitfg(pid)`
with `j = &jobs[i]`, a slot with state `FG` is slot `i` and holds `pid`. -/
def FgOwned (jobs : List job_t) : Ctl → Prop
  | Ctl.done => ∀ (k : Nat) (j : job_t), jobs[k]? = some j → j.state ≠ FG
  | Ctl.waiting i pid =>
    ∀ (k : Nat) (j : job_t), jobs[k]? = some j → j.state = FG → k = i ∧ j.pid = pid

/-- The invariant of the reachable states. -/
def ShellInv (t : JobTable) (c : Ctl) : Prop :=
  SlotsOK t.jobs ∧ PidsDistinct t.jobs ∧ FgOwned t.jobs c

/-! ## Scanning and writing slots -/

theorem firstIdx_eq_none (p : job_t → Bool) (l : List job_t) :
    firstIdx p l = none ↔ ∀ j ∈ l, p j = false := by
  induction l with
  | nil => simp [firstIdx]
  | cons a l ih =>
    by_cases h : p a = true
    · simp [firstIdx, h]
    · simp only [Bool.not_eq_true] at h
      simp [firstIdx, h, ih]

theorem firstIdx_some_iff (p : job_t → Bool) (l : List job_t) (i : Nat) :
    firstIdx p l = some i ↔
      (∃ j, l[i]? = some j ∧ p j = true) ∧ ∀ k j, k < i → l[k]? = some j → p j = false := by
  induction l generalizing i with
  | nil => simp [firstIdx]
  | cons a l ih =>
    by_cases h : p a = true
    · cases i with
      | zero => simp [firstIdx, h]
      | succ n =>
        simp only [firstIdx, h, if_true]
        constructor
        · intro h0
          cases h0
        · intro h0
          have := h0.2 0 a (Nat.succ_pos n) (by simp)
          rw [h] at this
          cases this
    · simp only [Bool.not_eq_true] at h
      cases i with
      | zero =>
        simp only [firstIdx, h]
        constructor
        · intro h0
          cases hf : firstIdx p l <;> simp [hf] at h0
        · intro h0
          obtain ⟨⟨j, hj, hp⟩, _⟩ := h0
          simp at hj
          subst hj
          rw [h] at hp
          cases hp
      | succ n =>
        simp only [firstIdx, h]
        constructor
        · intro h0
          cases hf : firstIdx p l with
          | none => simp [hf] at h0
          | some m =>
            simp [hf] at h0
            subst h0
            obtain ⟨hex, hlt⟩ := (ih m).1 hf
            refine ⟨by simpa using hex, ?_⟩
            intro k j hk hkj
            cases k with
            | zero =>
              simp at hkj
              subst hkj
              exact h
            | succ k => exact hlt k j (by omega) (by simpa using hkj)
        · intro h0
          obtain ⟨hex, hlt⟩ := h0
          have : firstIdx p l = some n := by
            refine (ih n).2 ⟨by simpa using hex, ?_⟩
            intro k j hk hkj
            exact hlt (k + 1) j (by omega) (by simpa using hkj)
          simp [this]

theorem length_updateSlot (f : job_t → job_t) (i : Nat) (l : List job_t) :
    (updateSlot f i l).length = l.length := by
  induction l generalizing i with
  | nil => cases i <;> simp [updateSlot]
  | cons a l ih => cases i <;> simp [updateSlot, ih]

theorem getElem?_updateSlot (f : job_t → job_t) (i : Nat) (l : List job_t) (k : Nat) :
    (updateSlot f i l)[k]? = if k = i then (l[k]?).map f else l[k]? := by
  induction l generalizing i k with
  | nil => cases i <;> simp [updateSlot]
  | cons a l ih =>
    cases i with
    | zero =>
      cases k with
      | zero => simp [updateSlot]
      | succ k => simp [updateSlot]
    | succ i =>
      cases k with
      | zero => simp [updateSlot]
      | succ k => simp [updateSlot, ih]

/-! ## addjob and deletejob: failure leaves the table alone -/

theorem firstIdx_isSome_of_mem (p : job_t → Bool) (l : List job_t) (j : job_t)
    (hj : j ∈ l) (hp : p j = true) : ∃ i, firstIdx p l = some i := by
  cases h : firstIdx p l with
  | some i => exact ⟨i, rfl⟩
  | none =>
    have := (firstIdx_eq_none p l).1 h j hj
    rw [hp] at this
    cases this

theorem countP_updateSlot_clearjob (pid : Int) (hpid : 1 ≤ pid) (l : List job_t) (i : Nat)
    (h : firstIdx (fun j => j.pid == pid) l = some i) :
    (updateSlot clearjob i l).countP (fun j => j.pid == pid) + 1
      = l.countP (fun j => j.pid == pid) := by
  induction l generalizing i with
  | nil => simp [firstIdx] at h
  | cons a l ih =>
    by_cases ha : (a.pid == pid) = true
    · simp only [firstIdx, ha, if_true, Option.some.injEq] at h
      subst h
      have hc : ((clearjob a).pid == pid) = false := by
        simp only [clearjob, beq_eq_false_iff_ne, ne_eq]
        omega
      simp [updateSlot, List.countP_cons, ha, hc]
    · simp only [Bool.not_eq_true] at ha
      simp only [firstIdx, ha] at h
      cases hf : firstIdx (fun j => j.pid == pid) l with
      | none => simp [hf] at h
      | some m =>
        simp [hf] at h
        subst h
        have := ih m hf
        simp only [updateSlot, List.countP_cons, ha]
        simpa using this

theorem addjob_succeeds_of_free (verbose : Bool) (t : JobTable) (pid state : Int)
    (cmdline : String) (hpid : 1 ≤ pid) (hfree : ∃ j ∈ t.jobs, j.pid = 0) :
    (addjob verbose t pid state cmdline).1 = 1 := by
  have hnot : ¬ pid < 1 := by omega
  obtain ⟨j, hj, hz⟩ := hfree
  obtain ⟨i, hi⟩ := firstIdx_isSome_of_mem (fun j => j.pid == 0) t.jobs j hj (by simpa using hz)
  simp [addjob, hnot, hi]

/-- C4. For a pid that is at least 1: on a table with no empty slot `addjob`
returns 0, prints `Tried to create too many jobs` and leaves every slot and
`nextjid` as they were; on a table with an empty slot it returns 1.  (The
table may have any number of slots, in particular `MAXJOBS`.) -/
theorem addjob_fails_iff_full (verbose : Bool) (t : JobTable) (pid state : Int)
    (cmdline : String) (hpid : 1 ≤ pid) :
    ((∀ j ∈ t.jobs, j.pid ≠ 0) →
      addjob verbose t pid state cmdline
        = (0, t, [Action.print "Tried to create too many jobs\n"])) ∧
    ((∃ j ∈ t.jobs, j.pid = 0) → (addjob verbose t pid state cmdline).1 = 1) := by
  have hnot : ¬ pid < 1 := by omega
  constructor
  · intro hfull
    have hnone : firstIdx (fun j => j.pid == 0) t.jobs = none := by
      rw [firstIdx_eq_none]
      intro j hj
      simpa using hfull j hj
    simp [addjob, hnot, hnone]
  · rintro ⟨j, hj, hz⟩
    obtain ⟨i, hi⟩ := firstIdx_isSome_of_mem (fun j => j.pid == 0) t.jobs j hj (by simpa using hz)
    simp [addjob, hnot, hi]

theorem addjob_fails_iff_full_witness :
    addjob false fullTable 17 BG "b\n"
        = (0, fullTable, [Action.print "Tried to create too many jobs\n"]) ∧
    (addjob false initial 1 BG "b\n").1 = 1 :=
  ⟨(addjob_fails_iff_full false fullTable 17 BG "b\n" (by decide)).1 (by decide),
   (addjob_fails_iff_full false initial 1 BG "b\n" (by decide)).2 (by decide)⟩

/-- C6. `deletejob` on a pid that is below 1 or that no slot holds returns 0
and leaves every slot and `nextjid` as they were; and for a pid (at least 1)
that exactly one slot holds, two calls in a row return 1 and then 0, the
second leaving the table as the first left it. -/
theorem deletejob_absent_noop (t : JobTable) (pid : Int) :
    ((pid < 1 ∨ ∀ j ∈ t.jobs, j.pid ≠ pid) → deletejob t pid = (0, t)) ∧
    (1 ≤ pid → t.jobs.countP (fun j => j.pid == pid) = 1 →
      (deletejob t pid).1 = 1 ∧
      deletejob (deletejob t pid).2 pid = (0, (deletejob t pid).2)) := by
  constructor
  · intro h
    by_cases hlt : pid < 1
    · simp [deletejob, hlt]
    · have habs : ∀ j ∈ t.jobs, j.pid ≠ pid := by
        cases h with
        | inl h => exact absurd h hlt
        | inr h => exact h
      have hnone : firstIdx (fun j => j.pid == pid) t.jobs = none := by
        rw [firstIdx_eq_none]
        intro j hj
        simpa using habs j hj
      simp [deletejob, hlt, hnone]
  · intro hpid hcount
    have hnot : ¬ pid < 1 := by omega
    have hpos : 0 < t.jobs.countP (fun j => j.pid == pid) := by omega
    obtain ⟨j, hj, hp⟩ := List.countP_pos_iff.1 hpos
    obtain ⟨i, hi⟩ := firstIdx_isSome_of_mem (fun j => j.pid == pid) t.jobs j hj hp
    have hc := countP_updateSlot_clearjob pid hpid t.jobs i hi
    have hzero : (updateSlot clearjob i t.jobs).countP (fun j => j.pid == pid) = 0 := by omega
    have hnone : firstIdx (fun j => j.pid == pid) (updateSlot clearjob i t.jobs) = none := by
      rw [firstIdx_eq_none]
      intro x hx
      have := List.countP_eq_zero.1 hzero x hx
      simpa using this
    simp [deletejob, hnot, hi, hnone]

theorem deletejob_absent_noop_witness :
    deletejob initial 7 = (0, initial) ∧
    ((deletejob fullTable 3).1 = 1 ∧
      deletejob (deletejob fullTable 3).2 3 = (0, (deletejob fullTable 3).2)) :=
  ⟨(deletejob_absent_noop initial 7).1 (Or.inr (by decide)),
   (deletejob_absent_noop fullTable 3).2 (by decide) (by decide)⟩

/-! ## Evaluations at concrete inputs -/

/-- C1. Two live jobs with the same jid.  From the initial table: fifteen
`addjob` calls (pids 1 to 15 get jids 1 to 15), `deletejob(2)` (which sets
`nextjid = 16`), `addjob` of pid 16 (jid 16, and `nextjid` wraps to 1) and
`addjob` of pid 17: every inserted pid is at least 1 and new to the table,
both final calls return 1, and pid 17 is given jid 1 while pid 1 still holds
jid 1, so the jids of the live slots are not pairwise distinct. -/
theorem jid_reused_while_live :
    freshAdds false initial (wrapPrefix ++ [Op.add 16 BG "a\n", Op.add 17 BG "a\n"]) = true ∧
    pid2jid (run false initial (wrapPrefix ++ [Op.add 16 BG "a\n", Op.add 17 BG "a\n"])) 1 = 1 ∧
    pid2jid (run false initial (wrapPrefix ++ [Op.add 16 BG "a\n", Op.add 17 BG "a\n"])) 17 = 1 ∧
    ¬ (liveJids
        (run false initial (wrapPrefix ++ [Op.add 16 BG "a\n", Op.add 17 BG "a\n"])).jobs).Nodup := by
  decide

/-- C3. `bg %5` on the initial table, where no job has jid 5: `builtin_cmd`
prints `%5 : No such job` and then goes on to `j->state = BG` with `j` null,
instead of returning 1 with the table as it was; and `fg 99`, where no job has
pid 99, does the same after `(99) : No such process`. -/
theorem builtin_cmd_missing_target_faults :
    builtin_cmd initial ["bg", "%5"] = (Outcome.fault, [Action.print "%5 : No such job\n"]) ∧
    builtin_cmd initial ["fg", "99"]
      = (Outcome.fault, [Action.print "(99) : No such process\n"]) := by
  decide

/-- C5. A background launch on a table at capacity prints two lines.  With all
16 slots live, `eval` of `/bin/ls &` (the child has pid 99) leaves the table
as it was and prints `Tried to create too many jobs` and then the background
notice `(0) (99) /bin/ls &` for a job that was never registered; the
foreground launch `/bin/ls` on the same table prints the report only. -/
theorem eval_full_table_background_two_lines :
    eval false fullTable "/bin/ls &\n" 99
      = (Outcome.ret (fullTable, Ctl.done),
          [Action.sigblock, Action.fork 99, Action.addjob 99 BG 0,
           Action.print "Tried to create too many jobs\n",
           Action.sigunblock,
           Action.print "(0) (99) /bin/ls &\n"]) ∧
    eval false fullTable "/bin/ls\n" 99
      = (Outcome.ret (fullTable, Ctl.done),
          [Action.sigblock, Action.fork 99, Action.addjob 99 FG 0,
           Action.print "Tried to create too many jobs\n",
           Action.sigunblock]) := by
  decide

/-- C9, counterexample. After the calls of `wrapPrefix` from the initial
table, `addjob` of pid 16 and `addjob` of pid 17 both return 1 with nothing
between them; the first assigns jid 16 and the second assigns jid 1. -/
theorem addjob_jid_decreases_at_wrap :
    (step false (run false initial wrapPrefix) (Op.add 16 BG "a\n")).1 = 1 ∧
    (step false (run false initial (wrapPrefix ++ [Op.add 16 BG "a\n"])) (Op.add 17 BG "a\n")).1 = 1 ∧
    pid2jid (run false initial (wrapPrefix ++ [Op.add 16 BG "a\n"])) 16 = 16 ∧
    pid2jid (run false initial (wrapPrefix ++ [Op.add 16 BG "a\n", Op.add 17 BG "a\n"])) 17 = 1 := by
  decide

/-! ## The jid a successful addjob assigns -/

theorem mem_updateSlot (f : job_t → job_t) (i : Nat) (l : List job_t) (x : job_t)
    (hx : x ∈ updateSlot f i l) : x ∈ l ∨ ∃ y ∈ l, x = f y := by
  obtain ⟨n, hn⟩ := List.mem_iff_getElem?.1 hx
  rw [getElem?_updateSlot] at hn
  by_cases hni : n = i
  · rw [if_pos hni] at hn
    cases hy : l[n]? with
    | none => simp [hy] at hn
    | some y =>
      simp [hy] at hn
      exact Or.inr ⟨y, List.mem_iff_getElem?.2 ⟨n, hy⟩, hn.symm⟩
  · rw [if_neg hni] at hn
    exact Or.inl (List.mem_iff_getElem?.2 ⟨n, hn⟩)

theorem deletejob_eq_of_success (t : JobTable) (pid : Int) (h : (deletejob t pid).1 = 1) :
    1 ≤ pid ∧ ∃ k, firstIdx (fun j => j.pid == pid) t.jobs = some k ∧
      (deletejob t pid).2
        = { jobs := updateSlot clearjob k t.jobs,
            nextjid := maxjid (updateSlot clearjob k t.jobs) + 1 } := by
  by_cases hlt : pid < 1
  · simp [deletejob, hlt] at h
  · cases hf : firstIdx (fun j => j.pid == pid) t.jobs with
    | none => simp [deletejob, hlt, hf] at h
    | some k => exact ⟨by omega, k, rfl, by simp [deletejob, hlt, hf]⟩

theorem addjob_eq_of_success (verbose : Bool) (t : JobTable) (pid state : Int)
    (cmdline : String) (h : (addjob verbose t pid state cmdline).1 = 1) :
    1 ≤ pid ∧ ∃ i j, firstIdx (fun j => j.pid == 0) t.jobs = some i ∧ t.jobs[i]? = some j ∧
      j.pid = 0 ∧
      (addjob verbose t pid state cmdline).2.1
        = { jobs := updateSlot
              (fun j => { j with pid := pid, state := state, jid := t.nextjid, cmdline := cmdline })
              i t.jobs,
            nextjid := if t.nextjid + 1 > (MAXJOBS : Int) then 1 else t.nextjid + 1 } := by
  by_cases hlt : pid < 1
  · simp [addjob, hlt] at h
  · cases hf : firstIdx (fun j => j.pid == 0) t.jobs with
    | none => simp [addjob, hlt, hf] at h
    | some i =>
      obtain ⟨⟨j, hj, hp⟩, _⟩ := (firstIdx_some_iff _ _ _).1 hf
      exact ⟨by omega, i, j, rfl, hj, by simpa using hp, by simp [addjob, hlt, hf]⟩

theorem foldl_maxjid_filter (l : List job_t) (hslot : ∀ j ∈ l, j.pid = 0 → j.jid = 0)
    (acc : Int) (hacc : 0 ≤ acc) :
    l.foldl (fun max j => if j.jid > max then j.jid else max) acc
      = (l.filter (fun j => j.pid != 0)).foldl
          (fun max j => if j.jid > max then j.jid else max) acc := by
  induction l generalizing acc with
  | nil => rfl
  | cons a l ih =>
    have hl : ∀ j ∈ l, j.pid = 0 → j.jid = 0 := fun j hj => hslot j (List.mem_cons_of_mem a hj)
    by_cases ha : a.pid = 0
    · have hz : a.jid = 0 := hslot a (List.mem_cons_self a l) ha
      have hnot : ¬ (0 : Int) > acc := by omega
      simp only [List.foldl_cons, hz, hnot, if_false]
      rw [List.filter_cons_of_neg (by simp [ha])]
      exact ih hl acc hacc
    · rw [List.filter_cons_of_pos (by simpa using ha)]
      simp only [List.foldl_cons]
      apply ih hl
      split <;> omega

/-- C8. When `deletejob(pid)` returns 1 and the next call is an `addjob` that
returns 1, the slot it fills holds the new pid, state and command line with
jid `maxjid` of the table left by the deletion plus one.  When the empty slots
of the table carried jid 0 before the deletion, that `maxjid` is the largest
jid among the jobs that remain, and the jid is 1 when no job remains. -/
theorem addjob_after_deletejob_jid (verbose : Bool) (t : JobTable) (pid newpid state : Int)
    (cmdline : String)
    (hdel : (deletejob t pid).1 = 1)
    (hadd : (addjob verbose (deletejob t pid).2 newpid state cmdline).1 = 1) :
    (∃ i, firstIdx (fun j => j.pid == 0) (deletejob t pid).2.jobs = some i ∧
      (addjob verbose (deletejob t pid).2 newpid state cmdline).2.1.jobs[i]?
        = some { pid := newpid, jid := maxjid (deletejob t pid).2.jobs + 1,
                 state := state, cmdline := cmdline }) ∧
    ((∀ j ∈ t.jobs, j.pid = 0 → j.jid = 0) →
      maxjid (deletejob t pid).2.jobs = maxLiveJid (deletejob t pid).2.jobs ∧
      ((∀ j ∈ (deletejob t pid).2.jobs, j.pid = 0) → maxjid (deletejob t pid).2.jobs + 1 = 1)) := by
  obtain ⟨_, k, _, hk⟩ := deletejob_eq_of_success t pid hdel
  obtain ⟨_, i, j, hi, hj, _, hi2⟩ :=
    addjob_eq_of_success verbose (deletejob t pid).2 newpid state cmdline hadd
  constructor
  · refine ⟨i, hi, ?_⟩
    rw [hi2]
    simp only [getElem?_updateSlot, if_true, hj, Option.map_some']
    rw [hk]
  · intro hslot
    have hslot1 : ∀ j ∈ (deletejob t pid).2.jobs, j.pid = 0 → j.jid = 0 := by
      rw [hk]
      intro x hx hx0
      rcases mem_updateSlot clearjob k t.jobs x hx with h | ⟨y, _, hy⟩
      · exact hslot x h hx0
      · rw [hy]
        rfl
    have heq : maxjid (deletejob t pid).2.jobs = maxLiveJid (deletejob t pid).2.jobs :=
      foldl_maxjid_filter _ hslot1 0 (le_refl 0)
    refine ⟨heq, ?_⟩
    intro hempty
    rw [heq]
    have hnil : (deletejob t pid).2.jobs.filter (fun j => j.pid != 0) = [] := by
      rw [List.filter_eq_nil_iff]
      intro x hx
      simp [hempty x hx]
    simp [maxLiveJid, hnil]

theorem addjob_after_deletejob_jid_witness :
    (∃ i, firstIdx (fun j => j.pid == 0)
          (deletejob (run false initial [Op.add 5 BG "a\n"]) 5).2.jobs = some i ∧
      (addjob false (deletejob (run false initial [Op.add 5 BG "a\n"]) 5).2 40 FG "c\n").2.1.jobs[i]?
        = some { pid := 40,
                 jid := maxjid (deletejob (run false initial [Op.add 5 BG "a\n"]) 5).2.jobs + 1,
                 state := FG, cmdline := "c\n" }) ∧
    maxjid (deletejob (run false initial [Op.add 5 BG "a\n"]) 5).2.jobs
      = maxLiveJid (deletejob (run false initial [Op.add 5 BG "a\n"]) 5).2.jobs ∧
    maxjid (deletejob (run false initial [Op.add 5 BG "a\n"]) 5).2.jobs + 1 = 1 :=
  ⟨(addjob_after_deletejob_jid false (run false initial [Op.add 5 BG "a\n"]) 5 40 FG "c\n"
      (by decide) (by decide)).1,
   ((addjob_after_deletejob_jid false (run false initial [Op.add 5 BG "a\n"]) 5 40 FG "c\n"
      (by decide) (by decide)).2 (by decide)).1,
   ((addjob_after_deletejob_jid false (run false initial [Op.add 5 BG "a\n"]) 5 40 FG "c\n"
      (by decide) (by decide)).2 (by decide)).2 (by decide)⟩

/-! ## The reaper and a stopped child -/

theorem firstIdx_updateSlot (p : job_t → Bool) (f : job_t → job_t) (hf : ∀ x, p (f x) = p x)
    (i : Nat) (l : List job_t) : firstIdx p (updateSlot f i l) = firstIdx p l := by
  induction l generalizing i with
  | nil => cases i <;> rfl
  | cons a l ih =>
    cases i with
    | zero => simp [updateSlot, firstIdx, hf]
    | succ i => simp [updateSlot, firstIdx, ih]

theorem pid2jid_of_firstIdx (t : JobTable) (pid : Int) (hpid : 1 ≤ pid) (i : Nat) (j : job_t)
    (hi : firstIdx (fun j => j.pid == pid) t.jobs = some i) (hj : t.jobs[i]? = some j) :
    pid2jid t pid = j.jid := by
  have hnot : ¬ pid < 1 := by omega
  simp [pid2jid, hnot, hi, hj]

/-- C10. For a child pid (at least 1) that some slot holds, `sigchld_handler`
on the one status "stopped by signal `sig`" for that pid returns with the job
`getjobpid` finds still in its slot, its state `ST` and its pid, jid and
command line as before, every other slot and `nextjid` as before, and prints
exactly `Job [jid] (pid) stopped by signal sig` with that job's jid. -/
theorem sigchld_handler_stopped (t : JobTable) (pid sig : Int) (hpid : 1 ≤ pid)
    (hheld : ∃ j ∈ t.jobs, j.pid = pid) :
    ∃ i j t1, getjobpid t.jobs pid = some i ∧ t.jobs[i]? = some j ∧ j.pid = pid ∧
      sigchld_handler t [(pid, Status.stopped sig)]
        = (Outcome.ret t1,
            [Action.print ("Job [" ++ fmtd j.jid ++ "] (" ++ fmtd pid ++
              ") stopped by signal " ++ fmtd sig ++ "\n")]) ∧
      t1.nextjid = t.nextjid ∧
      t1.jobs.length = t.jobs.length ∧
      t1.jobs[i]? = some { pid := j.pid, jid := j.jid, state := ST, cmdline := j.cmdline } ∧
      ∀ k, k ≠ i → t1.jobs[k]? = t.jobs[k]? := by
  have hnot : ¬ pid < 1 := by omega
  obtain ⟨x, hx, hxp⟩ := hheld
  obtain ⟨i, hi⟩ := firstIdx_isSome_of_mem (fun j => j.pid == pid) t.jobs x hx (by simpa using hxp)
  obtain ⟨⟨j, hj, hp⟩, _⟩ := (firstIdx_some_iff _ _ _).1 hi
  have hget : getjobpid t.jobs pid = some i := by simp [getjobpid, hnot, hi]
  have hi1 : firstIdx (fun j => j.pid == pid)
      (updateSlot (fun x => { x with state := ST }) i t.jobs) = some i := by
    rw [firstIdx_updateSlot (fun j => j.pid == pid) (fun x => { x with state := ST })
      (fun _ => rfl)]
    exact hi
  have hj1 : (updateSlot (fun x => { x with state := ST }) i t.jobs)[i]?
      = some { pid := j.pid, jid := j.jid, state := ST, cmdline := j.cmdline } := by
    simp [getElem?_updateSlot, hj]
  have hjid := pid2jid_of_firstIdx
    { t with jobs := updateSlot (fun x => { x with state := ST }) i t.jobs } pid hpid i _ hi1 hj1
  refine ⟨i, j, { t with jobs := updateSlot (fun x => { x with state := ST }) i t.jobs },
    hget, hj, by simpa using hp, ?_, rfl, length_updateSlot _ _ _, hj1, ?_⟩
  · have hpos : pid > 0 := by omega
    simp only [sigchld_handler, hpos, if_true, reapOne, hget, hjid, List.append_nil]
  · intro k hk
    simp [getElem?_updateSlot, hk]

theorem sigchld_handler_stopped_witness :
    ∃ i j t1, getjobpid fullTable.jobs 3 = some i ∧ fullTable.jobs[i]? = some j ∧ j.pid = 3 ∧
      sigchld_handler fullTable [(3, Status.stopped 20)]
        = (Outcome.ret t1,
            [Action.print ("Job [" ++ fmtd j.jid ++ "] (" ++ fmtd 3 ++
              ") stopped by signal " ++ fmtd 20 ++ "\n")]) ∧
      t1.nextjid = fullTable.nextjid ∧
      t1.jobs.length = fullTable.jobs.length ∧
      t1.jobs[i]? = some { pid := j.pid, jid := j.jid, state := ST, cmdline := j.cmdline } ∧
      ∀ k, k ≠ i → t1.jobs[k]? = fullTable.jobs[k]? :=
  sigchld_handler_stopped fullTable 3 20 (by decide) ⟨⟨3, 3, BG, "a\n"⟩, by decide, rfl⟩

/-! ## Insert, then find -/

theorem firstIdx_updateSlot_ne (p : job_t → Bool) (f : job_t → job_t)
    (hf : ∀ x, p x = false → p (f x) = false) (l : List job_t) (i k : Nat) (hk : k ≠ i)
    (hi : firstIdx p l = some i) : firstIdx p (updateSlot f k l) = some i := by
  obtain ⟨⟨j, hj, hp⟩, hlt⟩ := (firstIdx_some_iff p l i).1 hi
  refine (firstIdx_some_iff p _ i).2 ⟨⟨j, ?_, hp⟩, ?_⟩
  · rw [getElem?_updateSlot, if_neg (Ne.symm hk)]
    exact hj
  · intro m x hm hx
    rw [getElem?_updateSlot] at hx
    by_cases hmk : m = k
    · rw [if_pos hmk] at hx
      cases hy : l[m]? with
      | none => simp [hy] at hx
      | some y =>
        simp [hy] at hx
        rw [← hx]
        exact hf y (hlt m y hm hy)
    · rw [if_neg hmk] at hx
      exact hlt m x hm hx

theorem deletejob_keeps_other (t : JobTable) (pid q : Int) (hpid : 1 ≤ pid) (hq : q ≠ pid)
    (i : Nat) (J : job_t) (hi : firstIdx (fun j => j.pid == pid) t.jobs = some i)
    (hJ : t.jobs[i]? = some J) :
    firstIdx (fun j => j.pid == pid) (deletejob t q).2.jobs = some i ∧
      (deletejob t q).2.jobs[i]? = some J := by
  by_cases hlt : q < 1
  · simp [deletejob, hlt, hi, hJ]
  · cases hf : firstIdx (fun j => j.pid == q) t.jobs with
    | none => simp [deletejob, hlt, hf, hi, hJ]
    | some k =>
      obtain ⟨⟨y, hy, hyq⟩, _⟩ := (firstIdx_some_iff _ _ _).1 hf
      obtain ⟨⟨z, hz, hzp⟩, _⟩ := (firstIdx_some_iff _ _ _).1 hi
      have hki : k ≠ i := by
        intro hEq
        subst hEq
        rw [hy] at hz
        cases hz
        simp only [beq_iff_eq] at hyq hzp
        exact hq (hyq.symm.trans hzp)
      have hclear : ∀ x : job_t, (fun j : job_t => j.pid == pid) x = false →
          (fun j : job_t => j.pid == pid) (clearjob x) = false := by
        intro x _
        simp only [clearjob, beq_eq_false_iff_ne, ne_eq]
        omega
      simp only [deletejob, hlt, if_false, hf]
      refine ⟨firstIdx_updateSlot_ne _ _ hclear _ _ _ hki hi, ?_⟩
      rw [getElem?_updateSlot, if_neg (Ne.symm hki)]
      exact hJ

theorem reapOne_keeps_other (t t2 : JobTable) (pid q : Int) (status : Status)
    (out : List Action) (hpid : 1 ≤ pid) (hq : q ≠ pid)
    (i : Nat) (J : job_t) (hi : firstIdx (fun j => j.pid == pid) t.jobs = some i)
    (hJ : t.jobs[i]? = some J) (h : reapOne t q status = (Outcome.ret t2, out)) :
    firstIdx (fun j => j.pid == pid) t2.jobs = some i ∧ t2.jobs[i]? = some J := by
  cases status with
  | signaled sig =>
    simp only [reapOne, Prod.mk.injEq, Outcome.ret.injEq] at h
    rw [← h.1]
    exact deletejob_keeps_other t pid q hpid hq i J hi hJ
  | exited code =>
    simp only [reapOne, Prod.mk.injEq, Outcome.ret.injEq] at h
    rw [← h.1]
    exact deletejob_keeps_other t pid q hpid hq i J hi hJ
  | other =>
    simp only [reapOne, Prod.mk.injEq, Outcome.ret.injEq] at h
    rw [← h.1]
    exact ⟨hi, hJ⟩
  | stopped sig =>
    cases hg : getjobpid t.jobs q with
    | none => simp [reapOne, hg] at h
    | some k =>
      simp only [reapOne, hg, Prod.mk.injEq, Outcome.ret.injEq] at h
      rw [← h.1]
      have hf : firstIdx (fun j => j.pid == q) t.jobs = some k := by
        by_cases hlt : q < 1
        · simp [getjobpid, hlt] at hg
        · simpa [getjobpid, hlt] using hg
      obtain ⟨⟨y, hy, hyq⟩, _⟩ := (firstIdx_some_iff _ _ _).1 hf
      obtain ⟨⟨z, hz, hzp⟩, _⟩ := (firstIdx_some_iff _ _ _).1 hi
      have hki : k ≠ i := by
        intro hEq
        subst hEq
        rw [hy] at hz
        cases hz
        simp only [beq_iff_eq] at hyq hzp
        exact hq (hyq.symm.trans hzp)
      refine ⟨firstIdx_updateSlot_ne (fun j => j.pid == pid) (fun x => { x with state := ST })
        (fun _ hx => hx) _ _ _ hki hi, ?_⟩
      show (updateSlot (fun x => { x with state := ST }) k t.jobs)[i]? = some J
      rw [getElem?_updateSlot, if_neg (Ne.symm hki)]
      exact hJ

theorem sigchld_handler_keeps_other (pid : Int) (hpid : 1 ≤ pid) (i : Nat) (J : job_t)
    (pending : List (Int × Status)) (hq : ∀ e ∈ pending, e.1 ≠ pid) (t t2 : JobTable)
    (out : List Action) (hi : firstIdx (fun j => j.pid == pid) t.jobs = some i)
    (hJ : t.jobs[i]? = some J) (h : sigchld_handler t pending = (Outcome.ret t2, out)) :
    firstIdx (fun j => j.pid == pid) t2.jobs = some i ∧ t2.jobs[i]? = some J := by
  induction pending generalizing t out with
  | nil =>
    simp only [sigchld_handler, Prod.mk.injEq, Outcome.ret.injEq] at h
    rw [← h.1]
    exact ⟨hi, hJ⟩
  | cons e pending ih =>
    obtain ⟨q, status⟩ := e
    have hqe : q ≠ pid := hq (q, status) (List.mem_cons_self _ _)
    have hrest : ∀ e ∈ pending, e.1 ≠ pid := fun e he => hq e (List.mem_cons_of_mem _ he)
    by_cases hpos : q > 0
    · cases hr : reapOne t q status with
      | mk o out1 =>
        cases o with
        | ret t1 =>
          simp only [sigchld_handler, hpos, if_true, hr] at h
          obtain ⟨hi1, hJ1⟩ := reapOne_keeps_other t t1 pid q status out1 hpid hqe i J hi hJ hr
          exact ih hrest t1 (sigchld_handler t1 pending).2 hi1 hJ1
            (Prod.ext (by simpa using congrArg Prod.fst h) rfl)
        | exited c => simp [sigchld_handler, hpos, hr] at h
        | fault => simp [sigchld_handler, hpos, hr] at h
        | child => simp [sigchld_handler, hpos, hr] at h
    · simp only [sigchld_handler, hpos, if_false, Prod.mk.injEq, Outcome.ret.injEq] at h
      rw [← h.1]
      exact ⟨hi, hJ⟩

/-- C7. On a table with an empty slot, for a pid that is at least 1 and that
no slot holds, `addjob(pid, state, cmdline)` returns 1, and then
`getjobpid(pid)` returns a slot that holds exactly that pid, state and command
line, with the jid `addjob` assigned (the `nextjid` of the call), which
`pid2jid(pid)` returns; and the same is true, for the same slot, after any run
of `sigchld_handler` that returns and whose children all differ from `pid`
(each one deleted, or marked `ST`). -/
theorem addjob_then_getjobpid (verbose : Bool) (t : JobTable) (pid state : Int)
    (cmdline : String) (hpid : 1 ≤ pid) (hfresh : ∀ j ∈ t.jobs, j.pid ≠ pid)
    (hfree : ∃ j ∈ t.jobs, j.pid = 0) :
    (addjob verbose t pid state cmdline).1 = 1 ∧
    ∃ i, getjobpid (addjob verbose t pid state cmdline).2.1.jobs pid = some i ∧
      (addjob verbose t pid state cmdline).2.1.jobs[i]?
        = some { pid := pid, jid := t.nextjid, state := state, cmdline := cmdline } ∧
      pid2jid (addjob verbose t pid state cmdline).2.1 pid = t.nextjid ∧
      ∀ (pending : List (Int × Status)) (t2 : JobTable) (out : List Action),
        (∀ e ∈ pending, e.1 ≠ pid) →
        sigchld_handler (addjob verbose t pid state cmdline).2.1 pending = (Outcome.ret t2, out) →
        getjobpid t2.jobs pid = some i ∧
        t2.jobs[i]? = some { pid := pid, jid := t.nextjid, state := state, cmdline := cmdline } ∧
        pid2jid t2 pid = t.nextjid := by
  have hnot : ¬ pid < 1 := by omega
  have hsucc := addjob_succeeds_of_free verbose t pid state cmdline hpid hfree
  obtain ⟨_, i, j, hi, hj, _, heq⟩ := addjob_eq_of_success verbose t pid state cmdline hsucc
  obtain ⟨_, hlt⟩ := (firstIdx_some_iff _ _ _).1 hi
  have hslot : (addjob verbose t pid state cmdline).2.1.jobs[i]?
      = some { pid := pid, jid := t.nextjid, state := state, cmdline := cmdline } := by
    rw [heq]
    simp [getElem?_updateSlot, hj]
  have hfirst : firstIdx (fun j => j.pid == pid) (addjob verbose t pid state cmdline).2.1.jobs
      = some i := by
    refine (firstIdx_some_iff _ _ _).2 ⟨⟨_, hslot, by simp⟩, ?_⟩
    intro k x hk hx
    rw [heq] at hx
    simp only [getElem?_updateSlot, if_neg (Nat.ne_of_lt hk)] at hx
    have := hfresh x (List.mem_iff_getElem?.2 ⟨k, hx⟩)
    simpa using this
  refine ⟨hsucc, i, by simp [getjobpid, hnot, hfirst], hslot,
    pid2jid_of_firstIdx _ pid hpid i _ hfirst hslot, ?_⟩
  intro pending t2 out hq hrun
  obtain ⟨hi2, hJ2⟩ := sigchld_handler_keeps_other pid hpid i _ pending hq _ t2 out hfirst hslot hrun
  exact ⟨by simp [getjobpid, hnot, hi2], hJ2, pid2jid_of_firstIdx t2 pid hpid i _ hi2 hJ2⟩

theorem addjob_then_getjobpid_witness :
    (addjob false (run false initial wrapPrefix) 40 FG "c\n").1 = 1 ∧
    ∃ i t2 out,
      sigchld_handler (addjob false (run false initial wrapPrefix) 40 FG "c\n").2.1
        [(3, Status.exited 0), (4, Status.stopped 20)] = (Outcome.ret t2, out) ∧
      getjobpid t2.jobs 40 = some i ∧
      t2.jobs[i]? = some { pid := 40, jid := (run false initial wrapPrefix).nextjid,
                           state := FG, cmdline := "c\n" } ∧
      pid2jid t2 40 = (run false initial wrapPrefix).nextjid := by
  obtain ⟨h1, i, _, _, _, hall⟩ :=
    addjob_then_getjobpid false (run false initial wrapPrefix) 40 FG "c\n"
      (by decide) (by decide) (by decide)
  have hrun : sigchld_handler (addjob false (run false initial wrapPrefix) 40 FG "c\n").2.1
      [(3, Status.exited 0), (4, Status.stopped 20)]
      = (Outcome.ret
          { jobs := updateSlot (fun x => { x with state := ST }) 3
              (deletejob (addjob false (run false initial wrapPrefix) 40 FG "c\n").2.1 3).2.jobs,
            nextjid :=
              (deletejob (addjob false (run false initial wrapPrefix) 40 FG "c\n").2.1 3).2.nextjid },
         [Action.print "Job [4] (4) stopped by signal 20\n"]) := by
    decide
  exact ⟨h1, i, _, _, hrun, hall _ _ _ (by decide) hrun⟩

/-! ## Two successful addjob calls in a row -/

theorem step_fail_unchanged (verbose : Bool) (t : JobTable) (op : Op)
    (h : (step verbose t op).1 = 0) : (step verbose t op).2 = t := by
  cases op with
  | add pid state cmdline =>
    simp only [step] at h ⊢
    by_cases hlt : pid < 1
    · simp [addjob, hlt]
    · cases hf : firstIdx (fun j => j.pid == 0) t.jobs with
      | none => simp [addjob, hlt, hf]
      | some i => simp [addjob, hlt, hf] at h
  | del pid =>
    simp only [step] at h ⊢
    by_cases hlt : pid < 1
    · simp [deletejob, hlt]
    · cases hf : firstIdx (fun j => j.pid == pid) t.jobs with
      | none => simp [deletejob, hlt, hf]
      | some i => simp [deletejob, hlt, hf] at h

theorem run_allFail (verbose : Bool) (ops : List Op) (t : JobTable)
    (h : allFail verbose t ops = true) : run verbose t ops = t := by
  induction ops generalizing t with
  | nil => rfl
  | cons op ops ih =>
    simp only [allFail, Bool.and_eq_true, decide_eq_true_eq] at h
    have hstep := step_fail_unchanged verbose t op h.1
    simp only [run]
    rw [hstep] at h ⊢
    exact ih t h.2

/-- C9, amended. When `addjob` returns 1, every call after it (`addjob` or
`deletejob`) up to the next `addjob` that returns 1 returns 0, and the jid the
first one assigned (the `nextjid` of its call) is below `MAXJOBS`, then the
second one assigns that jid plus one, which is strictly greater. -/
theorem addjob_consecutive_jid_succ (verbose : Bool) (t : JobTable) (pid1 state1 : Int)
    (cmdline1 : String) (mid : List Op) (pid2 state2 : Int) (cmdline2 : String)
    (h1 : (addjob verbose t pid1 state1 cmdline1).1 = 1)
    (hmid : allFail verbose (addjob verbose t pid1 state1 cmdline1).2.1 mid = true)
    (h2 : (addjob verbose (run verbose (addjob verbose t pid1 state1 cmdline1).2.1 mid)
            pid2 state2 cmdline2).1 = 1)
    (hlt : t.nextjid < (MAXJOBS : Int)) :
    ∃ i1 i2 j1 j2,
      firstIdx (fun j => j.pid == 0) t.jobs = some i1 ∧
      (addjob verbose t pid1 state1 cmdline1).2.1.jobs[i1]? = some j1 ∧
      firstIdx (fun j => j.pid == 0)
        (run verbose (addjob verbose t pid1 state1 cmdline1).2.1 mid).jobs = some i2 ∧
      (addjob verbose (run verbose (addjob verbose t pid1 state1 cmdline1).2.1 mid)
        pid2 state2 cmdline2).2.1.jobs[i2]? = some j2 ∧
      j1.jid = t.nextjid ∧ j2.jid = j1.jid + 1 ∧ j1.jid < j2.jid := by
  rw [run_allFail verbose mid _ hmid] at h2 ⊢
  obtain ⟨_, i1, x1, hi1, hx1, _, heq1⟩ := addjob_eq_of_success verbose t pid1 state1 cmdline1 h1
  obtain ⟨_, i2, x2, hi2, hx2, _, heq2⟩ := addjob_eq_of_success verbose _ pid2 state2 cmdline2 h2
  have hnext : (addjob verbose t pid1 state1 cmdline1).2.1.nextjid = t.nextjid + 1 := by
    rw [heq1]
    have : ¬ t.nextjid + 1 > (MAXJOBS : Int) := by omega
    simp only [this, if_false]
  refine ⟨i1, i2, { pid := pid1, jid := t.nextjid, state := state1, cmdline := cmdline1 },
    { pid := pid2, jid := t.nextjid + 1, state := state2, cmdline := cmdline2 },
    hi1, ?_, hi2, ?_, rfl, rfl, by simp⟩
  · rw [heq1]
    simp [getElem?_updateSlot, hx1]
  · rw [heq2]
    simp [getElem?_updateSlot, hx2, hnext]

theorem addjob_consecutive_jid_succ_witness :
    ∃ i1 i2 j1 j2,
      firstIdx (fun j => j.pid == 0) initial.jobs = some i1 ∧
      (addjob false initial 1 BG "a\n").2.1.jobs[i1]? = some j1 ∧
      firstIdx (fun j => j.pid == 0)
        (run false (addjob false initial 1 BG "a\n").2.1 [Op.del 9, Op.add 0 FG "b\n"]).jobs
          = some i2 ∧
      (addjob false (run false (addjob false initial 1 BG "a\n").2.1 [Op.del 9, Op.add 0 FG "b\n"])
        2 FG "c\n").2.1.jobs[i2]? = some j2 ∧
      j1.jid = initial.nextjid ∧ j2.jid = j1.jid + 1 ∧ j1.jid < j2.jid :=
  addjob_consecutive_jid_succ false initial 1 BG "a\n" [Op.del 9, Op.add 0 FG "b\n"] 2 FG "c\n"
    (by decide) (by decide) (by decide) (by decide)

/-! ## At most one foreground job -/

theorem getElem?_updateSlot_some (f : job_t → job_t) (i : Nat) (l : List job_t) (k : Nat)
    (x : job_t) (h : (updateSlot f i l)[k]? = some x) :
    (k ≠ i ∧ l[k]? = some x) ∨ (k = i ∧ ∃ y, l[k]? = some y ∧ x = f y) := by
  rw [getElem?_updateSlot] at h
  by_cases hk : k = i
  · rw [if_pos hk] at h
    cases hy : l[k]? with
    | none => simp [hy] at h
    | some y =>
      simp [hy] at h
      exact Or.inr ⟨hk, y, rfl, h.symm⟩
  · rw [if_neg hk] at h
    exact Or.inl ⟨hk, h⟩

theorem slotsOK_updateSlot (f : job_t → job_t)
    (hf : ∀ y, (1 ≤ y.jid → 1 ≤ y.pid) → 1 ≤ (f y).jid → 1 ≤ (f y).pid)
    (i : Nat) (l : List job_t) (h : SlotsOK l) : SlotsOK (updateSlot f i l) := by
  intro k x hx hjid
  rcases getElem?_updateSlot_some f i l k x hx with ⟨_, hold⟩ | ⟨_, y, hly, hy⟩
  · exact h k x hold hjid
  · rw [hy] at hjid ⊢
    exact hf y (h k y hly) hjid

theorem pidsDistinct_updateSlot (f : job_t → job_t)
    (hf : ∀ y, 1 ≤ (f y).pid → (f y).pid = y.pid)
    (i : Nat) (l : List job_t) (h : PidsDistinct l) : PidsDistinct (updateSlot f i l) := by
  intro a b ja jb ha hb hpid heq
  have key : ∀ (k : Nat) (x : job_t), (updateSlot f i l)[k]? = some x → 1 ≤ x.pid →
      ∃ y, l[k]? = some y ∧ y.pid = x.pid := by
    intro k x hx hx1
    rcases getElem?_updateSlot_some f i l k x hx with ⟨_, hold⟩ | ⟨_, y, hy, hxy⟩
    · exact ⟨x, hold, rfl⟩
    · refine ⟨y, hy, ?_⟩
      rw [hxy] at hx1 ⊢
      exact (hf y hx1).symm
  obtain ⟨ya, hya, hpa⟩ := key a ja ha hpid
  obtain ⟨yb, hyb, hpb⟩ := key b jb hb (by omega)
  exact h a b ya yb hya hyb (by omega) (by omega)

theorem fgOwned_of_shrink (l l1 : List job_t) (c : Ctl)
    (hsub : ∀ (k : Nat) (x : job_t), l1[k]? = some x → x.state = FG → l[k]? = some x)
    (h : FgOwned l c) : FgOwned l1 c := by
  cases c with
  | done =>
    intro k x hx hfg
    exact h k x (hsub k x hx hfg) hfg
  | waiting i pid =>
    intro k x hx hfg
    exact h k x (hsub k x hx hfg) hfg

theorem fgOwned_updateSlot (f : job_t → job_t) (hf : ∀ y, (f y).state ≠ FG)
    (i : Nat) (l : List job_t) (c : Ctl) (h : FgOwned l c) : FgOwned (updateSlot f i l) c := by
  apply fgOwned_of_shrink l _ c _ h
  intro k x hx hfg
  rcases getElem?_updateSlot_some f i l k x hx with ⟨_, hold⟩ | ⟨_, y, _, hy⟩
  · exact hold
  · rw [hy] at hfg
    exact absurd hfg (hf y)

theorem countP_le_one_of_index (p : job_t → Bool) (l : List job_t) (i : Nat)
    (h : ∀ (k : Nat) (x : job_t), l[k]? = some x → p x = true → k = i) : l.countP p ≤ 1 := by
  induction l generalizing i with
  | nil => simp
  | cons a l ih =>
    by_cases ha : p a = true
    · have hi : 0 = i := h 0 a (by simp) ha
      have hzero : l.countP p = 0 := by
        rw [List.countP_eq_zero]
        intro x hx hpx
        obtain ⟨n, hn⟩ := List.mem_iff_getElem?.1 hx
        have := h (n + 1) x (by simpa using hn) hpx
        omega
      rw [List.countP_cons_of_pos _ _ ha, hzero]
    · rw [List.countP_cons_of_neg _ _ ha]
      apply ih (i - 1)
      intro k x hk hpx
      have := h (k + 1) x (by simpa using hk) hpx
      omega

theorem countFG_le_one_of_fgOwned (l : List job_t) (c : Ctl) (h : FgOwned l c) :
    countFG l ≤ 1 := by
  cases c with
  | done =>
    apply countP_le_one_of_index _ l 0
    intro k x hx hp
    exact absurd (by simpa using hp) (h k x hx)
  | waiting i pid =>
    apply countP_le_one_of_index _ l i
    intro k x hx hp
    exact (h k x hx (by simpa using hp)).1

theorem shellInv_initial : ShellInv initial Ctl.done := by
  have hall : ∀ j ∈ initial.jobs, j.pid = 0 ∧ j.jid = 0 ∧ j.state = 0 := by decide
  refine ⟨?_, ?_, ?_⟩
  · intro k j hj hjid
    have := hall j (List.mem_iff_getElem?.2 ⟨k, hj⟩)
    omega
  · intro a b ja jb ha _ hpid _
    have := hall ja (List.mem_iff_getElem?.2 ⟨a, ha⟩)
    omega
  · intro k j hj hfg
    have := hall j (List.mem_iff_getElem?.2 ⟨k, hj⟩)
    have h3 := this.2.2
    rw [hfg] at h3
    cases h3

theorem shellInv_clear (t : JobTable) (c : Ctl) (k : Nat) (n : Int) (h : ShellInv t c) :
    ShellInv { jobs := updateSlot clearjob k t.jobs, nextjid := n } c := by
  obtain ⟨h1, h2, h3⟩ := h
  refine ⟨slotsOK_updateSlot clearjob ?_ _ _ h1, pidsDistinct_updateSlot clearjob ?_ _ _ h2,
    fgOwned_updateSlot clearjob ?_ _ _ _ h3⟩
  · intro y _ hy
    simp [clearjob] at hy
  · intro y hy
    simp [clearjob] at hy
  · intro y
    simp [clearjob]

theorem shellInv_setState (t : JobTable) (c : Ctl) (k : Nat) (st : Int) (hst : st ≠ FG)
    (h : ShellInv t c) :
    ShellInv { t with jobs := updateSlot (fun x => { x with state := st }) k t.jobs } c := by
  obtain ⟨h1, h2, h3⟩ := h
  exact ⟨slotsOK_updateSlot (fun x => { x with state := st }) (fun _ hy => hy) _ _ h1,
    pidsDistinct_updateSlot (fun x => { x with state := st }) (fun _ _ => rfl) _ _ h2,
    fgOwned_updateSlot (fun x => { x with state := st }) (fun _ => hst) _ _ _ h3⟩

theorem shellInv_deletejob (t : JobTable) (c : Ctl) (pid : Int) (h : ShellInv t c) :
    ShellInv (deletejob t pid).2 c := by
  by_cases hlt : pid < 1
  · simpa [deletejob, hlt] using h
  · cases hf : firstIdx (fun j => j.pid == pid) t.jobs with
    | none => simpa [deletejob, hlt, hf] using h
    | some k =>
      simp only [deletejob, hlt, if_false, hf]
      exact shellInv_clear t c k _ h

theorem shellInv_reapOne (t t1 : JobTable) (c : Ctl) (pid : Int) (status : Status)
    (out : List Action) (h : ShellInv t c) (hr : reapOne t pid status = (Outcome.ret t1, out)) :
    ShellInv t1 c := by
  cases status with
  | signaled sig =>
    simp only [reapOne, Prod.mk.injEq, Outcome.ret.injEq] at hr
    rw [← hr.1]
    exact shellInv_deletejob t c pid h
  | exited code =>
    simp only [reapOne, Prod.mk.injEq, Outcome.ret.injEq] at hr
    rw [← hr.1]
    exact shellInv_deletejob t c pid h
  | other =>
    simp only [reapOne, Prod.mk.injEq, Outcome.ret.injEq] at hr
    rw [← hr.1]
    exact h
  | stopped sig =>
    cases hg : getjobpid t.jobs pid with
    | none => simp [reapOne, hg] at hr
    | some k =>
      simp only [reapOne, hg, Prod.mk.injEq, Outcome.ret.injEq] at hr
      rw [← hr.1]
      exact shellInv_setState t c k ST (by decide) h

theorem shellInv_sigchld_handler (c : Ctl) (pending : List (Int × Status)) (t t1 : JobTable)
    (out : List Action) (h : ShellInv t c)
    (hr : sigchld_handler t pending = (Outcome.ret t1, out)) : ShellInv t1 c := by
  induction pending generalizing t out with
  | nil =>
    simp only [sigchld_handler, Prod.mk.injEq, Outcome.ret.injEq] at hr
    rw [← hr.1]
    exact h
  | cons e pending ih =>
    obtain ⟨q, status⟩ := e
    by_cases hpos : q > 0
    · cases hq : reapOne t q status with
      | mk o out1 =>
        cases o with
        | ret t2 =>
          simp only [sigchld_handler, hpos, if_true, hq] at hr
          exact ih t2 (sigchld_handler t2 pending).2 (shellInv_reapOne t t2 c q status out1 h hq)
            (Prod.ext (by simpa using congrArg Prod.fst hr) rfl)
        | exited code => simp [sigchld_handler, hpos, hq] at hr
        | fault => simp [sigchld_handler, hpos, hq] at hr
        | child => simp [sigchld_handler, hpos, hq] at hr
    · simp only [sigchld_handler, hpos, if_false, Prod.mk.injEq, Outcome.ret.injEq] at hr
      rw [← hr.1]
      exact h

theorem fgOwned_wake (verbose : Bool) (t : JobTable) (i : Nat) (pid : Int) (out : List Action)
    (h : FgOwned t.jobs (Ctl.waiting i pid))
    (hw : waitfgPoll verbose t i pid = (Ctl.done, out)) : FgOwned t.jobs Ctl.done := by
  intro k x hx hfg
  obtain ⟨hk, hp⟩ := h k x hx hfg
  subst hk
  have htest : waitfgTest t k pid = true := by
    simp [waitfgTest, hx, hp, hfg]
  simp [waitfgPoll, htest] at hw

theorem addjob_table_cases (verbose : Bool) (t : JobTable) (pid state : Int) (cmdline : String) :
    (addjob verbose t pid state cmdline).2.1 = t ∨
    (1 ≤ pid ∧ ∃ i j, firstIdx (fun j => j.pid == 0) t.jobs = some i ∧ t.jobs[i]? = some j ∧
      (addjob verbose t pid state cmdline).2.1
        = { jobs := updateSlot
              (fun j => { j with pid := pid, state := state, jid := t.nextjid, cmdline := cmdline })
              i t.jobs,
            nextjid := if t.nextjid + 1 > (MAXJOBS : Int) then 1 else t.nextjid + 1 }) := by
  by_cases hlt : pid < 1
  · exact Or.inl (by simp [addjob, hlt])
  · cases hf : firstIdx (fun j => j.pid == 0) t.jobs with
    | none => exact Or.inl (by simp [addjob, hlt, hf])
    | some i =>
      obtain ⟨⟨j, hj, _⟩, _⟩ := (firstIdx_some_iff _ _ _).1 hf
      exact Or.inr ⟨by omega, i, j, rfl, hj, by simp [addjob, hlt, hf]⟩

theorem getjobpid_none_of_fresh (jobs : List job_t) (pid : Int)
    (hfresh : ∀ j ∈ jobs, j.pid ≠ pid) : getjobpid jobs pid = none := by
  by_cases hlt : pid < 1
  · simp [getjobpid, hlt]
  · have hnone : firstIdx (fun j => j.pid == pid) jobs = none := by
      rw [firstIdx_eq_none]
      intro j hj
      simpa using hfresh j hj
    simp [getjobpid, hlt, hnone]

theorem shellInv_addjob (verbose : Bool) (t : JobTable) (pid state : Int) (cmdline : String)
    (h : ShellInv t Ctl.done) (hfresh : ∀ j ∈ t.jobs, j.pid ≠ pid) :
    (state ≠ FG → ShellInv (addjob verbose t pid state cmdline).2.1 Ctl.done) ∧
    (state = FG → ShellInv (addjob verbose t pid state cmdline).2.1
      (waitfg (addjob verbose t pid state cmdline).2.1 pid)) := by
  obtain ⟨h1, h2, h3⟩ := h
  rcases addjob_table_cases verbose t pid state cmdline with hsame | ⟨hpid, i, j, hi, hj, heq⟩
  · rw [hsame]
    refine ⟨fun _ => ⟨h1, h2, h3⟩, fun _ => ?_⟩
    have : waitfg t pid = Ctl.done := by
      simp [waitfg, getjobpid_none_of_fresh t.jobs pid hfresh]
    rw [this]
    exact ⟨h1, h2, h3⟩
  · have hnot : ¬ pid < 1 := by omega
    obtain ⟨f, hf⟩ : ∃ f : job_t → job_t, f =
        fun j => { j with pid := pid, state := state, jid := t.nextjid, cmdline := cmdline } :=
      ⟨_, rfl⟩
    rw [← hf] at heq
    have hfpid : ∀ y, (f y).pid = pid := by
      intro y
      rw [hf]
    have hfstate : ∀ y, (f y).state = state := by
      intro y
      rw [hf]
    have hjobs : (addjob verbose t pid state cmdline).2.1.jobs = updateSlot f i t.jobs := by
      rw [heq]
    have hs : SlotsOK (updateSlot f i t.jobs) :=
      slotsOK_updateSlot f (fun y _ _ => by rw [hfpid y]; exact hpid) _ _ h1
    have hd : PidsDistinct (updateSlot f i t.jobs) := by
      intro a b ja jb ha hb hpa hab
      rcases getElem?_updateSlot_some f i t.jobs a ja ha with ⟨hai, hoa⟩ | ⟨hai, ya, _, hya⟩
      · rcases getElem?_updateSlot_some f i t.jobs b jb hb with ⟨_, hob⟩ | ⟨_, yb, _, hyb⟩
        · exact h2 a b ja jb hoa hob hpa hab
        · exfalso
          apply hfresh ja (List.mem_iff_getElem?.2 ⟨a, hoa⟩)
          rw [hab, hyb, hfpid]
      · rcases getElem?_updateSlot_some f i t.jobs b jb hb with ⟨_, hob⟩ | ⟨hbi, yb, _, hyb⟩
        · exfalso
          apply hfresh jb (List.mem_iff_getElem?.2 ⟨b, hob⟩)
          rw [← hab, hya, hfpid]
        · omega
    refine ⟨fun hst => ?_, fun _ => ?_⟩
    · refine ⟨by rw [hjobs]; exact hs, by rw [hjobs]; exact hd, ?_⟩
      rw [hjobs]
      exact fgOwned_updateSlot f (fun y => by rw [hfstate y]; exact hst) _ _ _ h3
    · have hslot : (updateSlot f i t.jobs)[i]? = some (f j) := by
        simp [getElem?_updateSlot, hj]
      have hfirst : firstIdx (fun j => j.pid == pid) (updateSlot f i t.jobs) = some i := by
        refine (firstIdx_some_iff _ _ _).2 ⟨⟨_, hslot, by simp [hfpid]⟩, ?_⟩
        intro k x hk hx
        simp only [getElem?_updateSlot, if_neg (Nat.ne_of_lt hk)] at hx
        have := hfresh x (List.mem_iff_getElem?.2 ⟨k, hx⟩)
        simpa using this
      have hw : waitfg (addjob verbose t pid state cmdline).2.1 pid = Ctl.waiting i pid := by
        simp [waitfg, getjobpid, hnot, hjobs, hfirst]
      rw [hw]
      refine ⟨by rw [hjobs]; exact hs, by rw [hjobs]; exact hd, ?_⟩
      rw [hjobs]
      intro k x hx hfg
      rcases getElem?_updateSlot_some f i t.jobs k x hx with ⟨_, hold⟩ | ⟨hki, y, _, hy⟩
      · exact absurd hfg (h3 k x hold)
      · exact ⟨hki, by rw [hy, hfpid]⟩

theorem getjobjid_some (jobs : List job_t) (jid : Int) (i : Nat)
    (h : getjobjid jobs jid = some i) : ∃ j, jobs[i]? = some j ∧ 1 ≤ j.jid := by
  by_cases hlt : jid < 1
  · simp [getjobjid, hlt] at h
  · simp only [getjobjid, hlt, if_false] at h
    obtain ⟨⟨j, hj, hp⟩, _⟩ := (firstIdx_some_iff _ _ _).1 h
    refine ⟨j, hj, ?_⟩
    simp only [beq_iff_eq] at hp
    omega

theorem getjobpid_some (jobs : List job_t) (pid : Int) (i : Nat)
    (h : getjobpid jobs pid = some i) : ∃ j, jobs[i]? = some j ∧ 1 ≤ j.pid := by
  by_cases hlt : pid < 1
  · simp [getjobpid, hlt] at h
  · simp only [getjobpid, hlt, if_false] at h
    obtain ⟨⟨j, hj, hp⟩, _⟩ := (firstIdx_some_iff _ _ _).1 h
    refine ⟨j, hj, ?_⟩
    simp only [beq_iff_eq] at hp
    omega

theorem lookupTarget_some (t : JobTable) (arg : String) (i : Nat) (out : List Action)
    (h : lookupTarget t arg = (some i, out)) :
    ∃ j, t.jobs[i]? = some j ∧ (1 ≤ j.jid ∨ 1 ≤ j.pid) := by
  unfold lookupTarget at h
  split at h
  · split at h
    · simp at h
    · rename_i k hg
      simp only [Prod.mk.injEq, Option.some.injEq] at h
      obtain ⟨j, hj, hjid⟩ := getjobjid_some _ _ _ hg
      rw [← h.1]
      exact ⟨j, hj, Or.inl hjid⟩
  · split at h
    · simp at h
    · rename_i k hg
      simp only [Prod.mk.injEq, Option.some.injEq] at h
      obtain ⟨j, hj, hpid⟩ := getjobpid_some _ _ _ hg
      rw [← h.1]
      exact ⟨j, hj, Or.inr hpid⟩

theorem shellInv_fg (t : JobTable) (i : Nat) (j : job_t) (h : ShellInv t Ctl.done)
    (hj : t.jobs[i]? = some j) (hpid : 1 ≤ j.pid) :
    ShellInv { t with jobs := updateSlot (fun x => { x with state := FG }) i t.jobs }
      (waitfg { t with jobs := updateSlot (fun x => { x with state := FG }) i t.jobs } j.pid) := by
  obtain ⟨h1, h2, h3⟩ := h
  have hnot : ¬ j.pid < 1 := by omega
  have hfirst0 : firstIdx (fun x => x.pid == j.pid) t.jobs = some i := by
    refine (firstIdx_some_iff _ _ _).2 ⟨⟨j, hj, by simp⟩, ?_⟩
    intro k x hk hx
    by_cases hxp : x.pid = j.pid
    · have := h2 k i x j hx hj (by omega) hxp
      omega
    · simpa using hxp
  have hfirst : firstIdx (fun x => x.pid == j.pid)
      (updateSlot (fun x => { x with state := FG }) i t.jobs) = some i := by
    rw [firstIdx_updateSlot (fun x => x.pid == j.pid) (fun x => { x with state := FG })
      (fun _ => rfl)]
    exact hfirst0
  have hw : waitfg { t with jobs := updateSlot (fun x => { x with state := FG }) i t.jobs } j.pid
      = Ctl.waiting i j.pid := by
    simp [waitfg, getjobpid, hnot, hfirst]
  rw [hw]
  refine ⟨slotsOK_updateSlot (fun x => { x with state := FG }) (fun _ hy => hy) _ _ h1,
    pidsDistinct_updateSlot (fun x => { x with state := FG }) (fun _ _ => rfl) _ _ h2, ?_⟩
  intro k x hx hfg
  rcases getElem?_updateSlot_some _ i t.jobs k x hx with ⟨_, hold⟩ | ⟨hki, y, hy, hxy⟩
  · exact absurd hfg (h3 k x hold)
  · refine ⟨hki, ?_⟩
    rw [hki, hj] at hy
    cases hy
    rw [hxy]

theorem shellInv_builtin_cmd (t t1 : JobTable) (argv : List String) (r : Int) (c1 : Ctl)
    (out : List Action) (h : ShellInv t Ctl.done)
    (hb : builtin_cmd t argv = (Outcome.ret (r, t1, c1), out)) :
    ShellInv t1 c1 ∧ (r = 0 → t1 = t ∧ c1 = Ctl.done) := by
  cases argv with
  | nil => simp [builtin_cmd] at hb
  | cons cmd rest =>
    simp only [builtin_cmd] at hb
    split at hb
    · simp at hb
    · split at hb
      · simp only [Prod.mk.injEq, Outcome.ret.injEq] at hb
        obtain ⟨⟨_, ht, hc⟩, _⟩ := hb
        rw [← ht, ← hc]
        exact ⟨h, fun _ => ⟨rfl, rfl⟩⟩
      · split at hb
        · simp only [Prod.mk.injEq, Outcome.ret.injEq] at hb
          obtain ⟨⟨_, ht, hc⟩, _⟩ := hb
          rw [← ht, ← hc]
          exact ⟨h, fun _ => ⟨rfl, rfl⟩⟩
        · split at hb
          · split at hb
            · simp at hb
            · rename_i arg _
              split at hb
              · simp at hb
              · rename_i i out1 hl
                obtain ⟨j, hj, hlive⟩ := lookupTarget_some t arg i out1 hl
                have hpid : 1 ≤ j.pid := by
                  rcases hlive with hjid | hpid
                  · exact h.1 i j hj hjid
                  · exact hpid
                simp only [hj] at hb
                split at hb
                · simp only [Prod.mk.injEq, Outcome.ret.injEq] at hb
                  obtain ⟨⟨hr, ht, hc⟩, _⟩ := hb
                  rw [← ht, ← hc, ← hr]
                  exact ⟨shellInv_setState t Ctl.done i BG (by decide) h, fun h0 => by cases h0⟩
                · simp only [Prod.mk.injEq, Outcome.ret.injEq] at hb
                  obtain ⟨⟨hr, ht, hc⟩, _⟩ := hb
                  rw [← ht, ← hc, ← hr]
                  exact ⟨shellInv_fg t i j h hj hpid, fun h0 => by cases h0⟩
          · simp only [Prod.mk.injEq, Outcome.ret.injEq] at hb
            obtain ⟨⟨_, ht, hc⟩, _⟩ := hb
            rw [← ht, ← hc]
            exact ⟨h, fun _ => ⟨rfl, rfl⟩⟩

theorem shellInv_eval (verbose : Bool) (t t1 : JobTable) (c : Ctl) (cmdline : String)
    (forked : Int) (out : List Action) (h : ShellInv t Ctl.done)
    (hfresh : ∀ j ∈ t.jobs, j.pid ≠ forked)
    (he : eval verbose t cmdline forked = (Outcome.ret (t1, c), out)) : ShellInv t1 c := by
  unfold eval at he
  simp only at he
  split at he
  · simp only [Prod.mk.injEq, Outcome.ret.injEq] at he
    obtain ⟨⟨ht, hc⟩, _⟩ := he
    rw [← ht, ← hc]
    exact h
  · split at he
    · simp at he
    · simp at he
    · simp at he
    · rename_i r t2 c2 out2 hb
      obtain ⟨hinv, hdone⟩ := shellInv_builtin_cmd t t2 _ r c2 out2 h hb
      split at he
      · simp only [Prod.mk.injEq, Outcome.ret.injEq] at he
        obtain ⟨⟨ht, hc⟩, _⟩ := he
        rw [← ht, ← hc]
        exact hinv
      · rename_i hr
        have hr0 : r = 0 := by simpa using hr
        obtain ⟨ht2, hc2⟩ := hdone hr0
        subst ht2
        split at he
        · simp at he
        · split at he
          · simp at he
          · split at he
            · simp only [Prod.mk.injEq, Outcome.ret.injEq] at he
              obtain ⟨⟨ht, hc⟩, _⟩ := he
              rw [← ht, ← hc]
              exact (shellInv_addjob verbose t2 forked FG cmdline h hfresh).2 rfl
            · simp only [Prod.mk.injEq, Outcome.ret.injEq] at he
              obtain ⟨⟨ht, hc⟩, _⟩ := he
              rw [← ht, ← hc]
              exact (shellInv_addjob verbose t2 forked BG cmdline h hfresh).1 (by decide)

/-- C2. In every state the shell reaches from the initial table by calls of
`eval` (foreground and background launches, where `fork` gives the parent a
pid that no slot holds, and the built-ins, `bg` and `fg` on a target that
exists among them), runs of `sigchld_handler` (children exited, killed or
stopped) and returns of `waitfg` (only once its loop test fails), at most one
slot of the job table has state `FG`.  A step is a whole call: the handler
runs between calls and inside the loop of `waitfg`. -/
theorem at_most_one_foreground (verbose : Bool) (t : JobTable) (c : Ctl)
    (h : Reach verbose t c) : countFG t.jobs ≤ 1 := by
  have hinv : ShellInv t c := by
    induction h with
    | init => exact shellInv_initial
    | eval t t1 c cmdline forked out _ hfresh he ih =>
      exact shellInv_eval verbose t t1 c cmdline forked out ih hfresh he
    | reap t t1 c pending out _ hr ih =>
      exact shellInv_sigchld_handler c pending t t1 out ih hr
    | wake t i pid out _ hw ih =>
      exact ⟨ih.1, ih.2.1, fgOwned_wake verbose t i pid out ih.2.2 hw⟩
  exact countFG_le_one_of_fgOwned t.jobs c hinv.2.2

theorem at_most_one_foreground_witness :
    Reach false resumedTable (Ctl.waiting 0 5) ∧ countFG resumedTable.jobs ≤ 1 := by
  have h1 : Reach false launchedTable (Ctl.waiting 0 5) :=
    Reach.eval initial launchedTable (Ctl.waiting 0 5) "/bin/ls\n" 5
      [Action.sigblock, Action.fork 5, Action.addjob 5 FG 1, Action.sigunblock] Reach.init
      (by decide) (by decide)
  have h2 : Reach false stoppedTable (Ctl.waiting 0 5) :=
    Reach.reap launchedTable stoppedTable (Ctl.waiting 0 5) [(5, Status.stopped 20)]
      [Action.print "Job [1] (5) stopped by signal 20\n"] h1 (by decide)
  have h3 : Reach false stoppedTable Ctl.done :=
    Reach.wake stoppedTable 0 5 [] h2 (by decide)
  have h4 : Reach false resumedTable (Ctl.waiting 0 5) :=
    Reach.eval stoppedTable resumedTable (Ctl.waiting 0 5) "fg %1\n" 77
      [Action.kill (-5) Sig.SIGCONT] h3 (by decide) (by decide)
  exact ⟨h4, at_most_one_foreground false resumedTable (Ctl.waiting 0 5) h4⟩

/-! ## The reaper and a terminated child -/

theorem count_livePids (pid : Int) (hpid : pid ≠ 0) (l : List job_t) :
    (livePids l).count pid = l.countP (fun j => j.pid == pid) := by
  induction l with
  | nil => rfl
  | cons a l ih =>
    unfold livePids at ih ⊢
    by_cases ha : a.pid = 0
    · have hne : ¬ a.pid = pid := fun h => hpid (h ▸ ha)
      rw [List.filter_cons_of_neg (by simp [ha]), ih, List.countP_cons_of_neg]
      simpa using hne
    · rw [List.filter_cons_of_pos (by simpa using ha), List.map_cons]
      by_cases hap : a.pid = pid
      · rw [List.countP_cons_of_pos _ _ (by simpa using hap), hap, List.count_cons_self, ih]
      · rw [List.countP_cons_of_neg _ _ (by simpa using hap), List.count_cons_of_ne (Ne.symm hap),
          ih]

theorem listjobsFrom_updateSlot_clearjob (l : List job_t) (i n : Nat) (j : job_t)
    (hj : l[i]? = some j) :
    listjobsFrom n (updateSlot clearjob i l)
      = listjobsFrom n (l.take i) ++ listjobsFrom (n + i + 1) (l.drop (i + 1)) := by
  induction l generalizing i n with
  | nil => simp at hj
  | cons a l ih =>
    cases i with
    | zero => simp [updateSlot, listjobsFrom, clearjob]
    | succ i =>
      have hj1 : l[i]? = some j := by simpa using hj
      simp only [updateSlot, listjobsFrom, List.take_succ_cons, List.drop_succ_cons,
        List.append_assoc]
      rw [ih i (n + 1) hj1]
      have : n + 1 + i + 1 = n + (i + 1) + 1 := by omega
      rw [this]

/-- C11. On a table whose live pids are pairwise distinct, for a child pid (at
least 1) that a slot holds: `sigchld_handler` on a killed-by-signal status and
on a normal-exit status for that pid returns the same table, in which no slot
holds the pid (`getjobpid` finds nothing, the slot is cleared, and `listjobs`
writes what it wrote for the slots before and after it), and every other slot
is as before; the killed child is reported as
`Job [jid] (pid) terminated by signal N` with the jid the job had, the normal
exit prints nothing. -/
theorem sigchld_handler_terminated (t : JobTable) (pid : Int)
    (hdistinct : (livePids t.jobs).Nodup) (hpid : 1 ≤ pid) (hheld : ∃ j ∈ t.jobs, j.pid = pid) :
    ∃ i j t1, getjobpid t.jobs pid = some i ∧ t.jobs[i]? = some j ∧ j.pid = pid ∧
      (∀ sig, sigchld_handler t [(pid, Status.signaled sig)]
        = (Outcome.ret t1,
            [Action.print ("Job [" ++ fmtd j.jid ++ "] (" ++ fmtd pid ++
              ") terminated by signal " ++ fmtd sig ++ "\n")])) ∧
      (∀ code, sigchld_handler t [(pid, Status.exited code)] = (Outcome.ret t1, [])) ∧
      (∀ x ∈ t1.jobs, x.pid ≠ pid) ∧
      getjobpid t1.jobs pid = none ∧
      t1.jobs[i]? = some { pid := 0, jid := 0, state := UNDEF, cmdline := "" } ∧
      (∀ k, k ≠ i → t1.jobs[k]? = t.jobs[k]?) ∧
      listjobs t1.jobs = listjobsFrom 0 (t.jobs.take i) ++ listjobsFrom (i + 1) (t.jobs.drop (i + 1)) := by
  have hnot : ¬ pid < 1 := by omega
  have hpos : pid > 0 := by omega
  obtain ⟨x, hx, hxp⟩ := hheld
  obtain ⟨i, hi⟩ := firstIdx_isSome_of_mem (fun j => j.pid == pid) t.jobs x hx (by simpa using hxp)
  obtain ⟨⟨j, hj, hp⟩, _⟩ := (firstIdx_some_iff _ _ _).1 hi
  have hdel : (deletejob t pid).2
      = { jobs := updateSlot clearjob i t.jobs, nextjid := maxjid (updateSlot clearjob i t.jobs) + 1 } := by
    simp [deletejob, hnot, hi]
  have hle : t.jobs.countP (fun j => j.pid == pid) ≤ 1 := by
    rw [← count_livePids pid (by omega) t.jobs]
    exact List.nodup_iff_count_le_one.1 hdistinct pid
  have hc := countP_updateSlot_clearjob pid hpid t.jobs i hi
  have hzero : (updateSlot clearjob i t.jobs).countP (fun j => j.pid == pid) = 0 := by omega
  have habsent : ∀ x ∈ updateSlot clearjob i t.jobs, x.pid ≠ pid := by
    intro x hx
    have := List.countP_eq_zero.1 hzero x hx
    simpa using this
  refine ⟨i, j, (deletejob t pid).2, by simp [getjobpid, hnot, hi], hj, by simpa using hp,
    ?_, ?_, ?_, ?_, ?_, ?_, ?_⟩
  · intro sig
    simp only [sigchld_handler, hpos, if_true, reapOne, List.append_nil,
      pid2jid_of_firstIdx t pid hpid i j hi hj]
  · intro code
    simp only [sigchld_handler, hpos, if_true, reapOne, List.append_nil]
  · rw [hdel]
    exact habsent
  · rw [hdel]
    exact getjobpid_none_of_fresh _ pid habsent
  · rw [hdel]
    simp [getElem?_updateSlot, hj, clearjob]
  · intro k hk
    rw [hdel]
    simp [getElem?_updateSlot, hk]
  · rw [hdel]
    simpa using listjobsFrom_updateSlot_clearjob t.jobs i 0 j hj

theorem sigchld_handler_terminated_witness :
    ∃ i j t1, getjobpid fullTable.jobs 3 = some i ∧ fullTable.jobs[i]? = some j ∧ j.pid = 3 ∧
      (∀ sig, sigchld_handler fullTable [(3, Status.signaled sig)]
        = (Outcome.ret t1,
            [Action.print ("Job [" ++ fmtd j.jid ++ "] (" ++ fmtd 3 ++
              ") terminated by signal " ++ fmtd sig ++ "\n")])) ∧
      (∀ code, sigchld_handler fullTable [(3, Status.exited code)] = (Outcome.ret t1, [])) ∧
      (∀ x ∈ t1.jobs, x.pid ≠ 3) ∧
      getjobpid t1.jobs 3 = none ∧
      t1.jobs[i]? = some { pid := 0, jid := 0, state := UNDEF, cmdline := "" } ∧
      (∀ k, k ≠ i → t1.jobs[k]? = fullTable.jobs[k]?) ∧
      listjobs t1.jobs
        = listjobsFrom 0 (fullTable.jobs.take i) ++ listjobsFrom (i + 1) (fullTable.jobs.drop (i + 1)) :=
  sigchld_handler_terminated fullTable 3 (by decide) (by decide) ⟨⟨3, 3, BG, "a\n"⟩, by decide, rfl⟩

/-! ## bg and fg on a target that exists -/

theorem lookupTarget_first (t : JobTable) (arg : String) (i : Nat) (j : job_t)
    (hj : t.jobs[i]? = some j)
    (htarget :
      (arg.data.head? = some '%' ∧ 1 ≤ j.jid ∧ atoi (arg.data.drop 1) = j.jid ∧
        ∀ (k : Nat) (x : job_t), k < i → t.jobs[k]? = some x → x.jid ≠ j.jid) ∨
      (arg.data.head? ≠ some '%' ∧ 1 ≤ j.pid ∧ atoi arg.data = j.pid ∧
        ∀ (k : Nat) (x : job_t), k < i → t.jobs[k]? = some x → x.pid ≠ j.pid)) :
    lookupTarget t arg = (some i, []) := by
  rcases htarget with ⟨hhead, hjid, hat, hfirst⟩ | ⟨hhead, hpid, hat, hfirst⟩
  · have hnot : ¬ j.jid < 1 := by omega
    have hf : firstIdx (fun x => x.jid == j.jid) t.jobs = some i := by
      refine (firstIdx_some_iff _ _ _).2 ⟨⟨j, hj, by simp⟩, ?_⟩
      intro k x hk hx
      simpa using hfirst k x hk hx
    simp only [lookupTarget, hhead, if_true, hat, getjobjid, hnot, if_false, hf]
  · have hnot : ¬ j.pid < 1 := by omega
    have hf : firstIdx (fun x => x.pid == j.pid) t.jobs = some i := by
      refine (firstIdx_some_iff _ _ _).2 ⟨⟨j, hj, by simp⟩, ?_⟩
      intro k x hk hx
      simpa using hfirst k x hk hx
    simp only [lookupTarget, hhead, if_false, hat, getjobpid, hnot, hf]

/-- What `bg` and `fg` do to the first slot that carries the target's jid or
pid.  For `bg` or `fg` with a target that names a job of the table, either
`%` followed by text that `atoi` reads as its jid (at least 1), or text not
starting with `%` that `atoi` reads as its pid (at least 1), the job being
the first slot with that jid, respectively pid: `builtin_cmd` returns 1, the
slot keeps its pid, jid and command line and has state `BG` for `bg` and `FG`
for `fg`, every other slot and `nextjid` are as before, and `SIGCONT` is sent
to `-pid` of that job; `bg` first prints `[jid] (pid) cmdline`, `fg` ends in
`waitfg` of that job's pid, which waits on that slot when no earlier slot
holds the pid. -/
theorem builtin_cmd_bg_fg (t : JobTable) (cmd arg : String) (rest : List String) (i : Nat)
    (j : job_t) (hcmd : cmd = "bg" ∨ cmd = "fg") (hj : t.jobs[i]? = some j)
    (htarget :
      (arg.data.head? = some '%' ∧ 1 ≤ j.jid ∧ atoi (arg.data.drop 1) = j.jid ∧
        ∀ (k : Nat) (x : job_t), k < i → t.jobs[k]? = some x → x.jid ≠ j.jid) ∨
      (arg.data.head? ≠ some '%' ∧ 1 ≤ j.pid ∧ atoi arg.data = j.pid ∧
        ∀ (k : Nat) (x : job_t), k < i → t.jobs[k]? = some x → x.pid ≠ j.pid)) :
    ∃ t1 : JobTable,
      builtin_cmd t (cmd :: arg :: rest)
        = (Outcome.ret (1, t1, if cmd = "bg" then Ctl.done else waitfg t1 j.pid),
            (if cmd = "bg" then
              [Action.print ("[" ++ fmtd j.jid ++ "] (" ++ fmtd j.pid ++ ") " ++ j.cmdline)]
             else []) ++ [Action.kill (- j.pid) Sig.SIGCONT]) ∧
      t1.nextjid = t.nextjid ∧
      t1.jobs.length = t.jobs.length ∧
      t1.jobs[i]? = some { pid := j.pid, jid := j.jid, state := if cmd = "bg" then BG else FG,
                           cmdline := j.cmdline } ∧
      (∀ k, k ≠ i → t1.jobs[k]? = t.jobs[k]?) ∧
      (1 ≤ j.pid → (∀ (k : Nat) (x : job_t), k < i → t.jobs[k]? = some x → x.pid ≠ j.pid) →
        waitfg t1 j.pid = Ctl.waiting i j.pid) := by
  have hl := lookupTarget_first t arg i j hj htarget
  obtain ⟨st, hst⟩ : ∃ st : Int, st = if cmd = "bg" then BG else FG := ⟨_, rfl⟩
  refine ⟨{ t with jobs := updateSlot (fun x => { x with state := st }) i t.jobs }, ?_, rfl,
    length_updateSlot _ _ _, ?_, ?_, ?_⟩
  · rcases hcmd with hc | hc
    · subst hc
      simp [builtin_cmd, hl, hj, hst]
    · subst hc
      simp [builtin_cmd, hl, hj, hst]
  · simp [getElem?_updateSlot, hj, hst]
  · intro k hk
    simp [getElem?_updateSlot, hk]
  · intro hpid hfirst
    have hnot : ¬ j.pid < 1 := by omega
    have hf : firstIdx (fun x => x.pid == j.pid)
        (updateSlot (fun x => { x with state := st }) i t.jobs) = some i := by
      rw [firstIdx_updateSlot (fun x => x.pid == j.pid) (fun x => { x with state := st })
        (fun _ => rfl)]
      refine (firstIdx_some_iff _ _ _).2 ⟨⟨j, hj, by simp⟩, ?_⟩
      intro k x hk hx
      simpa using hfirst k x hk hx
    simp [waitfg, getjobpid, hnot, hf]

theorem builtin_cmd_bg_fg_witness :
    ∃ t1 : JobTable,
      builtin_cmd stoppedTable ["bg", "%1"]
        = (Outcome.ret (1, t1, Ctl.done),
            [Action.print ("[" ++ fmtd 1 ++ "] (" ++ fmtd 5 ++ ") " ++ "/bin/ls\n"),
             Action.kill (- 5) Sig.SIGCONT]) ∧
      t1.nextjid = stoppedTable.nextjid ∧
      t1.jobs.length = stoppedTable.jobs.length ∧
      t1.jobs[0]? = some { pid := 5, jid := 1, state := BG, cmdline := "/bin/ls\n" } ∧
      (∀ k, k ≠ 0 → t1.jobs[k]? = stoppedTable.jobs[k]?) ∧
      waitfg t1 5 = Ctl.waiting 0 5 := by
  obtain ⟨t1, h1, h2, h3, h4, h5, h6⟩ :=
    builtin_cmd_bg_fg stoppedTable "bg" "%1" []
      0 { pid := 5, jid := 1, state := ST, cmdline := "/bin/ls\n" }
      (Or.inl rfl) (by decide)
      (Or.inl ⟨by decide, by decide, by decide, fun k _ hk => absurd hk (Nat.not_lt_zero k)⟩)
  rw [if_pos rfl, if_pos rfl] at h1
  rw [if_pos rfl] at h4
  exact ⟨t1, h1, h2, h3, h4, h5, h6 (by decide) (fun k _ hk => absurd hk (Nat.not_lt_zero k))⟩

/-! ## The job listing -/

theorem outText_listjobsFrom (l : List job_t) (n : Nat) :
    outText (listjobsFrom n l)
      = concatText (((List.enumFrom n l).filter (fun p => p.2.pid != 0)).map
          (fun p => entryText p.1 p.2)) := by
  induction l generalizing n with
  | nil => rfl
  | cons a l ih =>
    by_cases ha : a.pid = 0
    · rw [List.enumFrom_cons, List.filter_cons_of_neg (by simp [ha])]
      simp only [listjobsFrom, ha, ne_eq, not_true_eq_false, if_false, List.nil_append]
      exact ih (n + 1)
    · rw [List.enumFrom_cons, List.filter_cons_of_pos (by simpa using ha)]
      simp only [listjobsFrom, ha, ne_eq, not_false_eq_true, if_true, List.cons_append,
        List.nil_append, outText, List.map_cons, concatText, entryText, ih (n + 1),
        String.append_assoc]

theorem listjobsFrom_all_empty (l : List job_t) (n : Nat) (h : ∀ j ∈ l, j.pid = 0) :
    listjobsFrom n l = [] := by
  induction l generalizing n with
  | nil => rfl
  | cons a l ih =>
    have ha : a.pid = 0 := h a (List.mem_cons_self a l)
    simp only [listjobsFrom, ha, ne_eq, not_true_eq_false, if_false, List.nil_append]
    exact ih (n + 1) (fun j hj => h j (List.mem_cons_of_mem a hj))

/-- C13. The text `listjobs` writes is, in slot order, one entry per slot with
`pid != 0` and nothing for the other slots, an entry being `(jid) (pid) `, the
state label and the stored command line; the label is `Running` for `BG`,
`Foreground` for `FG` and `Stopped` for `ST` (each padded with spaces to 11
characters).  After a background `addjob` that returns 1 on a table whose
slots are all empty, the listing is the one entry with the jid assigned, the
pid, `Running` and the command line. -/
theorem listjobs_text :
    (∀ jobs : List job_t, outText (listjobs jobs) = listingText jobs) ∧
    (∀ i : Nat, stateLabel i BG = "Running    " ∧ stateLabel i FG = "Foreground " ∧
      stateLabel i ST = "Stopped    ") ∧
    (∀ (verbose : Bool) (t : JobTable) (pid : Int) (cmdline : String),
      (∀ j ∈ t.jobs, j.pid = 0) → (addjob verbose t pid BG cmdline).1 = 1 →
      outText (listjobs (addjob verbose t pid BG cmdline).2.1.jobs)
        = "(" ++ fmtd t.nextjid ++ ") (" ++ fmtd pid ++ ") " ++ "Running    " ++ cmdline) := by
  refine ⟨fun jobs => outText_listjobsFrom jobs 0, fun i => ⟨rfl, rfl, rfl⟩, ?_⟩
  intro verbose t pid cmdline hempty hadd
  obtain ⟨hpid, i, j, hi, hj, _, heq⟩ := addjob_eq_of_success verbose t pid BG cmdline hadd
  have hne : pid ≠ 0 := by omega
  rw [heq]
  cases hjobs : t.jobs with
  | nil => simp [hjobs] at hj
  | cons a l =>
    have ha : a.pid = 0 := hempty a (by simp [hjobs])
    have hl : ∀ x ∈ l, x.pid = 0 := fun x hx => hempty x (by simp [hjobs, hx])
    have hi0 : i = 0 := by
      rw [hjobs] at hi
      simpa [firstIdx, ha] using hi.symm
    subst hi0
    simp only [updateSlot, listjobs, listjobsFrom, ne_eq, hne, not_false_eq_true, if_true,
      listjobsFrom_all_empty l 1 hl, List.append_nil, outText, stateLabel, String.append_assoc,
      String.append_empty]

theorem listjobs_text_witness :
    outText (listjobs (addjob false initial 7 BG "/bin/sleep 9 &\n").2.1.jobs)
      = "(" ++ fmtd initial.nextjid ++ ") (" ++ fmtd 7 ++ ") " ++ "Running    " ++ "/bin/sleep 9 &\n" :=
  listjobs_text.2.2 false initial 7 "/bin/sleep 9 &\n" (by decide) (by decide)

/-! ## The launcher -/

theorem builtin_cmd_not_builtin (t : JobTable) (cmd : String) (rest : List String)
    (hnb : cmd ∉ ["quit", "jobs", "&", "bg", "fg"]) :
    builtin_cmd t (cmd :: rest) = (Outcome.ret (0, t, Ctl.done), []) := by
  simp only [List.mem_cons, List.mem_singleton, not_or, List.not_mem_nil, not_false_eq_true,
    and_true] at hnb
  obtain ⟨h1, h2, h3, h4, h5⟩ := hnb
  simp [builtin_cmd, h1, h2, h3, h4, h5]

theorem addjob_prints (verbose : Bool) (t : JobTable) (pid state : Int) (cmdline : String) :
    ∀ a ∈ (addjob verbose t pid state cmdline).2.2, ∃ s, a = Action.print s := by
  intro a ha
  by_cases hlt : pid < 1
  · simp [addjob, hlt] at ha
  · cases hf : firstIdx (fun j => j.pid == 0) t.jobs with
    | none =>
      simp [addjob, hlt, hf] at ha
      exact ⟨_, ha⟩
    | some i =>
      cases verbose with
      | false => simp [addjob, hlt, hf] at ha
      | true =>
        simp [addjob, hlt, hf] at ha
        exact ⟨_, ha⟩

theorem neverExposed_prints_append (u : List Int) (l rest : List Action)
    (h : ∀ a ∈ l, ∃ s, a = Action.print s) :
    neverExposed true u (l ++ rest) = neverExposed true u rest := by
  induction l with
  | nil => rfl
  | cons a l ih =>
    obtain ⟨s, hs⟩ := h a (List.mem_cons_self a l)
    subst hs
    simp only [List.cons_append, neverExposed, blockedAfter, unregisteredAfter, Bool.true_or,
      Bool.true_and]
    exact ih (fun x hx => h x (List.mem_cons_of_mem _ hx))

theorem neverExposed_prints (b : Bool) (l : List Action)
    (h : ∀ a ∈ l, ∃ s, a = Action.print s) : neverExposed b [] l = true := by
  induction l with
  | nil => rfl
  | cons a l ih =>
    obtain ⟨s, hs⟩ := h a (List.mem_cons_self a l)
    subst hs
    simp only [neverExposed, blockedAfter, unregisteredAfter, List.isEmpty_nil, Bool.or_true,
      Bool.true_and]
    exact ih (fun x hx => h x (List.mem_cons_of_mem _ hx))

theorem neverExposed_launch (forked state : Int) (added notice : List Action)
    (hforked : 0 < forked) (hadded : ∀ a ∈ added, ∃ s, a = Action.print s)
    (hnotice : ∀ a ∈ notice, ∃ s, a = Action.print s) :
    neverExposed false []
      ([Action.sigblock, Action.fork forked, Action.addjob forked state 1] ++ added ++
        [Action.sigunblock] ++ notice) = true := by
  have hshape : [Action.sigblock, Action.fork forked, Action.addjob forked state 1] ++ added ++
      [Action.sigunblock] ++ notice
      = Action.sigblock :: Action.fork forked :: Action.addjob forked state 1 ::
          (added ++ Action.sigunblock :: notice) := by
    simp
  have hpos : forked > 0 := hforked
  have hfilter : List.filter (fun p => p != forked) [forked] = [] := by simp
  rw [hshape]
  simp only [neverExposed, blockedAfter, unregisteredAfter, hpos, if_true, Bool.true_or,
    Bool.true_and, hfilter]
  rw [neverExposed_prints_append [] added _ hadded]
  simp only [neverExposed, blockedAfter, unregisteredAfter, List.isEmpty_nil, Bool.or_true,
    Bool.true_and]
  exact neverExposed_prints false notice hnotice

theorem eval_not_builtin (verbose : Bool) (t : JobTable) (cmdline cmd : String)
    (rest : List String) (forked : Int)
    (hparse : (parseline cmdline).2 = cmd :: rest)
    (hnb : cmd ∉ ["quit", "jobs", "&", "bg", "fg"]) (hforked : 0 < forked) :
    eval verbose t cmdline forked
      = (Outcome.ret
          ((addjob verbose t forked (if (parseline cmdline).1 = false then FG else BG) cmdline).2.1,
            if (parseline cmdline).1 = false then
              waitfg (addjob verbose t forked FG cmdline).2.1 forked
            else Ctl.done),
          [Action.sigblock, Action.fork forked,
            Action.addjob forked (if (parseline cmdline).1 = false then FG else BG)
              (addjob verbose t forked (if (parseline cmdline).1 = false then FG else BG) cmdline).1]
          ++ (addjob verbose t forked (if (parseline cmdline).1 = false then FG else BG) cmdline).2.2
          ++ [Action.sigunblock]
          ++ (if (parseline cmdline).1 = false then []
              else [Action.print ("(" ++ fmtd (pid2jid (addjob verbose t forked BG cmdline).2.1 forked)
                      ++ ") (" ++ fmtd forked ++ ") " ++ cmdline)])) := by
  have hb := builtin_cmd_not_builtin t cmd rest hnb
  have h1 : ¬ forked < 0 := by omega
  have h2 : ¬ forked = 0 := by omega
  unfold eval
  simp only [hparse, hb]
  by_cases hbg : (parseline cmdline).1 = false
  · simp [hbg, h1, h2]
  · simp [hbg, h1, h2]

/-- C14, counterexample. On the table at capacity the foreground launch of
`/bin/ls` forks the child 99, `addjob` returns 0, and the signals are
unblocked with the child in no slot. -/
theorem eval_full_table_child_exposed :
    eval false fullTable "/bin/ls\n" 99
      = (Outcome.ret (fullTable, Ctl.done),
          [Action.sigblock, Action.fork 99, Action.addjob 99 FG 0,
           Action.print "Tried to create too many jobs\n",
           Action.sigunblock]) ∧
    getjobpid fullTable.jobs 99 = none ∧
    neverExposed false [] (eval false fullTable "/bin/ls\n" 99).2 = false := by
  decide

/-- C14, amended. For a command line whose first word is not a built-in and a
`fork` that returns a child pid to the parent, the actions of `eval` are, in
this order, block, `fork`, `addjob` (with what it prints), unblock, and for a
background job the notice; the table `eval` leaves is the one `addjob` leaves.
When the table has an empty slot, `addjob` returns 1, a slot holds the job
with the launch state and the command line, and after no action are the
signals unblocked while the forked child is unregistered. -/
theorem eval_launch_order (verbose : Bool) (t : JobTable) (cmdline cmd : String)
    (rest : List String) (forked : Int)
    (hparse : (parseline cmdline).2 = cmd :: rest)
    (hnb : cmd ∉ ["quit", "jobs", "&", "bg", "fg"]) (hforked : 0 < forked) :
    eval verbose t cmdline forked
      = (Outcome.ret
          ((addjob verbose t forked (if (parseline cmdline).1 = false then FG else BG) cmdline).2.1,
            if (parseline cmdline).1 = false then
              waitfg (addjob verbose t forked FG cmdline).2.1 forked
            else Ctl.done),
          [Action.sigblock, Action.fork forked,
            Action.addjob forked (if (parseline cmdline).1 = false then FG else BG)
              (addjob verbose t forked (if (parseline cmdline).1 = false then FG else BG) cmdline).1]
          ++ (addjob verbose t forked (if (parseline cmdline).1 = false then FG else BG) cmdline).2.2
          ++ [Action.sigunblock]
          ++ (if (parseline cmdline).1 = false then []
              else [Action.print ("(" ++ fmtd (pid2jid (addjob verbose t forked BG cmdline).2.1 forked)
                      ++ ") (" ++ fmtd forked ++ ") " ++ cmdline)])) ∧
    ((∃ j ∈ t.jobs, j.pid = 0) →
      (addjob verbose t forked (if (parseline cmdline).1 = false then FG else BG) cmdline).1 = 1 ∧
      (∃ i : Nat, (addjob verbose t forked (if (parseline cmdline).1 = false then FG else BG)
            cmdline).2.1.jobs[i]?
          = some ({ pid := forked, jid := t.nextjid,
                    state := if (parseline cmdline).1 = false then FG else BG,
                    cmdline := cmdline } : job_t)) ∧
      neverExposed false [] (eval verbose t cmdline forked).2 = true) := by
  have heval := eval_not_builtin verbose t cmdline cmd rest forked hparse hnb hforked
  refine ⟨heval, fun hfree => ?_⟩
  have hsucc := addjob_succeeds_of_free verbose t forked
    (if (parseline cmdline).1 = false then FG else BG) cmdline (by omega) hfree
  obtain ⟨_, i, j, _, hj, _, heq⟩ := addjob_eq_of_success verbose t forked _ cmdline hsucc
  refine ⟨hsucc, ⟨i, ?_⟩, ?_⟩
  · rw [heq]
    simp [getElem?_updateSlot, hj]
  · rw [heval]
    simp only [hsucc]
    apply neverExposed_launch forked _ _ _ hforked (addjob_prints verbose t forked _ cmdline)
    intro a ha
    split at ha
    · simp at ha
    · simp only [List.mem_singleton] at ha
      exact ⟨_, ha⟩

theorem eval_launch_order_witness :
    (eval false initial "/bin/ls &\n" 7).2
      = [Action.sigblock, Action.fork 7, Action.addjob 7 BG 1, Action.sigunblock,
         Action.print "(1) (7) /bin/ls &\n"] ∧
    (addjob false initial 7 (if (parseline "/bin/ls &\n").1 = false then FG else BG)
      "/bin/ls &\n").1 = 1 ∧
    neverExposed false [] (eval false initial "/bin/ls &\n" 7).2 = true := by
  have h := eval_launch_order false initial "/bin/ls &\n" "/bin/ls" [] 7
    (by decide) (by decide) (by decide)
  refine ⟨?_, (h.2 (by decide)).1, (h.2 (by decide)).2.2⟩
  rw [h.1]
  decide

/-! ## bg and fg outside any critical section -/

/-- C15. `fg %1` and `bg %1` on the table whose job 1 (pid 5) is stopped: the
job is looked up and its state written (`ST` to `FG`, respectively `BG`), and
the trace of `builtin_cmd` holds the `kill`(and the announcement of `bg`)
only, no block or unblock of the signals before, between or after. -/
theorem builtin_cmd_bg_fg_unblocked :
    stoppedTable.jobs[0]? = some { pid := 5, jid := 1, state := ST, cmdline := "/bin/ls\n" } ∧
    builtin_cmd stoppedTable ["fg", "%1"]
      = (Outcome.ret (1, resumedTable, Ctl.waiting 0 5), [Action.kill (-5) Sig.SIGCONT]) ∧
    resumedTable.jobs[0]? = some { pid := 5, jid := 1, state := FG, cmdline := "/bin/ls\n" } ∧
    (builtin_cmd stoppedTable ["bg", "%1"]).2
      = [Action.print "[1] (5) /bin/ls\n", Action.kill (-5) Sig.SIGCONT] ∧
    Action.sigblock ∉ (builtin_cmd stoppedTable ["fg", "%1"]).2 ∧
    Action.sigblock ∉ (builtin_cmd stoppedTable ["bg", "%1"]).2 := by
  decide

/-! ## Forwarding SIGINT and SIGTSTP -/

theorem fgpid_of_no_fg (l : List job_t) (h : ∀ j ∈ l, j.state ≠ FG) : fgpid l = 0 := by
  induction l with
  | nil => rfl
  | cons a l ih =>
    have ha : a.state ≠ FG := h a (List.mem_cons_self a l)
    simp only [fgpid, ha, if_false]
    exact ih (fun j hj => h j (List.mem_cons_of_mem a hj))

theorem fgpid_of_firstIdx (l : List job_t) (i : Nat) (j : job_t)
    (hi : firstIdx (fun x => x.state == FG) l = some i) (hj : l[i]? = some j) :
    fgpid l = j.pid := by
  induction l generalizing i with
  | nil => simp at hj
  | cons a l ih =>
    by_cases ha : a.state = FG
    · have : i = 0 := by simpa [firstIdx, ha] using hi.symm
      subst this
      simp only [List.getElem?_cons_zero, Option.some.injEq] at hj
      subst hj
      simp [fgpid, ha]
    · cases hf : firstIdx (fun x => x.state == FG) l with
      | none => simp [firstIdx, ha, hf] at hi
      | some m =>
        have him : i = m + 1 := by simpa [firstIdx, ha, hf] using hi.symm
        subst him
        simp only [fgpid, ha, if_false]
        exact ih m hf (by simpa using hj)

/-- C16. When no slot has state `FG`, `fgpid` returns 0 and `sigint_handler`
and `sigtstp_handler` send nothing.  On a table whose slots of state `FG`
hold a pid that is at least 1: `fgpid` returns 0 exactly when no slot has
state `FG`, and when one has, `fgpid` returns the pid of the first of them and
each handler sends exactly one signal, `sigint_handler` SIGINT and
`sigtstp_handler` SIGTSTP, to `-pid`. -/
theorem signal_forwarding (t : JobTable) :
    ((∀ j ∈ t.jobs, j.state ≠ FG) →
      fgpid t.jobs = 0 ∧ sigint_handler t = [] ∧ sigtstp_handler t = []) ∧
    ((∀ j ∈ t.jobs, j.state = FG → 1 ≤ j.pid) →
      (fgpid t.jobs = 0 ↔ ∀ j ∈ t.jobs, j.state ≠ FG) ∧
      ((∃ j ∈ t.jobs, j.state = FG) →
        ∃ (i : Nat) (j : job_t), t.jobs[i]? = some j ∧ j.state = FG ∧
          (∀ (k : Nat) (x : job_t), k < i → t.jobs[k]? = some x → x.state ≠ FG) ∧
          fgpid t.jobs = j.pid ∧
          sigint_handler t = [Action.kill (- j.pid) Sig.SIGINT] ∧
          sigtstp_handler t = [Action.kill (- j.pid) Sig.SIGTSTP])) := by
  constructor
  · intro hno
    have h0 := fgpid_of_no_fg t.jobs hno
    simp [sigint_handler, sigtstp_handler, h0]
  · intro hlive
    have hsome : (∃ j ∈ t.jobs, j.state = FG) →
        ∃ (i : Nat) (j : job_t), t.jobs[i]? = some j ∧ j.state = FG ∧
          (∀ (k : Nat) (x : job_t), k < i → t.jobs[k]? = some x → x.state ≠ FG) ∧
          fgpid t.jobs = j.pid ∧ 1 ≤ j.pid := by
      rintro ⟨x, hx, hxfg⟩
      obtain ⟨i, hi⟩ := firstIdx_isSome_of_mem (fun x => x.state == FG) t.jobs x hx
        (by simpa using hxfg)
      obtain ⟨⟨j, hj, hp⟩, hlt⟩ := (firstIdx_some_iff _ _ _).1 hi
      have hjfg : j.state = FG := by simpa using hp
      refine ⟨i, j, hj, hjfg, ?_, fgpid_of_firstIdx t.jobs i j hi hj,
        hlive j (List.mem_iff_getElem?.2 ⟨i, hj⟩) hjfg⟩
      intro k y hk hy
      simpa using hlt k y hk hy
    constructor
    · constructor
      · intro h0 j hj hfg
        obtain ⟨_, y, _, _, _, hpid, hy1⟩ := hsome ⟨j, hj, hfg⟩
        omega
      · exact fgpid_of_no_fg t.jobs
    · intro hex
      obtain ⟨i, j, hj, hjfg, hfirst, hpid, hj1⟩ := hsome hex
      have hpos : j.pid > 0 := by omega
      exact ⟨i, j, hj, hjfg, hfirst, hpid, by simp [sigint_handler, hpid, hpos],
        by simp [sigtstp_handler, hpid, hpos]⟩

theorem signal_forwarding_witness :
    (fgpid stoppedTable.jobs = 0 ∧ sigint_handler stoppedTable = [] ∧
      sigtstp_handler stoppedTable = []) ∧
    (fgpid resumedTable.jobs = 0 ↔ ∀ j ∈ resumedTable.jobs, j.state ≠ FG) ∧
    (∃ (i : Nat) (j : job_t), resumedTable.jobs[i]? = some j ∧ j.state = FG ∧
      (∀ (k : Nat) (x : job_t), k < i → resumedTable.jobs[k]? = some x → x.state ≠ FG) ∧
      fgpid resumedTable.jobs = j.pid ∧
      sigint_handler resumedTable = [Action.kill (- j.pid) Sig.SIGINT] ∧
      sigtstp_handler resumedTable = [Action.kill (- j.pid) Sig.SIGTSTP]) :=
  ⟨(signal_forwarding stoppedTable).1 (by decide),
   ((signal_forwarding resumedTable).2 (by decide)).1,
   ((signal_forwarding resumedTable).2 (by decide)).2 (by decide)⟩

/-! ## bg and fg without a target -/

/-- C19. `bg` and `fg` with no target: `argv[1]` is `NULL` and `builtin_cmd`
reads `argv[1][0]`, for the argument vector given directly and for the one
`parseline` builds from the line `bg`. -/
theorem builtin_cmd_no_target_faults :
    builtin_cmd initial ["bg"] = (Outcome.fault, []) ∧
    builtin_cmd initial ["fg"] = (Outcome.fault, []) ∧
    parseline "bg\n" = (false, ["bg"]) ∧
    eval false initial "bg\n" 7 = (Outcome.fault, []) := by
  decide

/-! ## A stopped child that has no job -/

theorem reach_bgLaunchOps (verbose : Bool) (pids : List Int) (t : JobTable)
    (h : Reach verbose t Ctl.done) (hfresh : freshAdds verbose t (bgLaunchOps pids) = true) :
    Reach verbose (run verbose t (bgLaunchOps pids)) Ctl.done := by
  induction pids generalizing t with
  | nil => exact h
  | cons pid pids ih =>
    simp only [bgLaunchOps, List.map_cons, freshAdds, Bool.and_eq_true, decide_eq_true_eq,
      List.all_eq_true, bne_iff_ne, ne_eq] at hfresh
    obtain ⟨⟨hpid, hnew⟩, hrest⟩ := hfresh
    have hparse : (parseline "a &\n").2 = "a" :: [] := by decide
    have hbg : (parseline "a &\n").1 = true := by decide
    have he := eval_not_builtin verbose t "a &\n" "a" [] pid hparse (by decide) (by omega)
    simp only [hbg, Bool.true_eq_false, if_false] at he
    have hstep : Reach verbose (step verbose t (Op.add pid BG "a &\n")).2 Ctl.done :=
      Reach.eval t _ Ctl.done "a &\n" pid _ h hnew he
    exact ih _ hstep hrest

/-- C18. A reachable state in which the reaper dereferences a null job.  From
the initial table sixteen background launches fill the table; the launch of
`/bin/sleep 5` then forks the child 99, for which `addjob` fails, so no slot
holds pid 99; when `sigchld_handler` processes the status "stopped by signal
20" of that child, `getjobpid` returns `NULL` and the write `j->state = ST`
faults. -/
theorem stopped_child_without_job :
    Reach false busyTable Ctl.done ∧
    eval false busyTable "/bin/sleep 5\n" 99
      = (Outcome.ret (busyTable, Ctl.done),
          [Action.sigblock, Action.fork 99, Action.addjob 99 FG 0,
           Action.print "Tried to create too many jobs\n", Action.sigunblock]) ∧
    getjobpid busyTable.jobs 99 = none ∧
    sigchld_handler busyTable [(99, Status.stopped 20)] = (Outcome.fault, []) :=
  ⟨reach_bgLaunchOps false sixteenPids initial Reach.init (by decide), by decide, by decide,
    by decide⟩

/-! ## Slot consistency -/

theorem foldl_maxjid_nonneg (l : List job_t) (acc : Int) (hacc : 0 ≤ acc) :
    0 ≤ l.foldl (fun max j => if j.jid > max then j.jid else max) acc := by
  induction l generalizing acc with
  | nil => exact hacc
  | cons a l ih =>
    simp only [List.foldl_cons]
    apply ih
    split <;> omega

theorem slotConsistent_updateSlot (f : job_t → job_t) (i : Nat) (l : List job_t)
    (h : ∀ (k : Nat) (x : job_t), l[k]? = some x → SlotConsistent x)
    (hf : ∀ y, l[i]? = some y → SlotConsistent (f y)) :
    ∀ (k : Nat) (x : job_t), (updateSlot f i l)[k]? = some x → SlotConsistent x := by
  intro k x hx
  rcases getElem?_updateSlot_some f i l k x hx with ⟨_, hold⟩ | ⟨hki, y, hy, hxy⟩
  · exact h k x hold
  · rw [hxy]
    exact hf y (hki ▸ hy)

theorem slotConsistent_setState (st : Int) (hst : st = FG ∨ st = BG ∨ st = ST) (i : Nat)
    (l : List job_t) (h : ∀ (k : Nat) (x : job_t), l[k]? = some x → SlotConsistent x)
    (hlive : ∀ y, l[i]? = some y → 1 ≤ y.jid ∨ 1 ≤ y.pid) :
    ∀ (k : Nat) (x : job_t),
      (updateSlot (fun x => { x with state := st }) i l)[k]? = some x → SlotConsistent x := by
  apply slotConsistent_updateSlot _ i l h
  intro y hy
  rcases h i y hy with ⟨hp, hj, _, _⟩ | ⟨hp, hj, _⟩
  · rcases hlive y hy with h1 | h1 <;> omega
  · exact Or.inr ⟨hp, hj, hst⟩

theorem tableReach_del_inv (t : JobTable) (pid : Int)
    (ih : (∀ (k : Nat) (x : job_t), t.jobs[k]? = some x → SlotConsistent x) ∧ 1 ≤ t.nextjid) :
    (∀ (k : Nat) (x : job_t), (deletejob t pid).2.jobs[k]? = some x → SlotConsistent x) ∧
      1 ≤ (deletejob t pid).2.nextjid := by
  by_cases hlt : pid < 1
  · simpa [deletejob, hlt] using ih
  · cases hf : firstIdx (fun j => j.pid == pid) t.jobs with
    | none => simpa [deletejob, hlt, hf] using ih
    | some i =>
      simp only [deletejob, hlt, if_false, hf]
      refine ⟨slotConsistent_updateSlot clearjob i t.jobs ih.1 ?_, ?_⟩
      · intro y _
        exact Or.inl ⟨rfl, rfl, rfl, rfl⟩
      · have := foldl_maxjid_nonneg (updateSlot clearjob i t.jobs) 0 (le_refl 0)
        show 1 ≤ maxjid (updateSlot clearjob i t.jobs) + 1
        unfold maxjid
        omega

theorem tableReach_inv (t : JobTable) (h : TableReach t) :
    (∀ (k : Nat) (x : job_t), t.jobs[k]? = some x → SlotConsistent x) ∧ 1 ≤ t.nextjid := by
  induction h with
  | init jobs =>
    refine ⟨?_, le_refl 1⟩
    intro k x hx
    have hmem : x ∈ initjobs jobs := List.mem_iff_getElem?.2 ⟨k, hx⟩
    simp only [initjobs, List.mem_map] at hmem
    obtain ⟨y, _, hy⟩ := hmem
    rw [← hy]
    exact Or.inl ⟨rfl, rfl, rfl, rfl⟩
  | add verbose t pid state cmdline _ hstate ih =>
    rcases addjob_table_cases verbose t pid state cmdline with hsame | ⟨hpid, i, j, _, _, heq⟩
    · rw [hsame]
      exact ih
    · rw [heq]
      refine ⟨slotConsistent_updateSlot _ i t.jobs ih.1 ?_, ?_⟩
      · intro y _
        refine Or.inr ⟨hpid, ih.2, ?_⟩
        rcases hstate with h1 | h1
        · exact Or.inl h1
        · exact Or.inr (Or.inl h1)
      · show 1 ≤ (if t.nextjid + 1 > (MAXJOBS : Int) then 1 else t.nextjid + 1)
        split <;> omega
  | del t pid _ ih => exact tableReach_del_inv t pid ih
  | builtin t t1 argv r c out _ hb ih =>
    cases argv with
    | nil => simp [builtin_cmd] at hb
    | cons cmd rest =>
      simp only [builtin_cmd] at hb
      split at hb
      · simp at hb
      · split at hb
        · simp only [Prod.mk.injEq, Outcome.ret.injEq] at hb
          rw [← hb.1.2.1]
          exact ih
        · split at hb
          · simp only [Prod.mk.injEq, Outcome.ret.injEq] at hb
            rw [← hb.1.2.1]
            exact ih
          · split at hb
            · split at hb
              · simp at hb
              · rename_i arg _
                split at hb
                · simp at hb
                · rename_i i out1 hl
                  obtain ⟨j, hj, hlive⟩ := lookupTarget_some t arg i out1 hl
                  have hlive1 : ∀ y, t.jobs[i]? = some y → 1 ≤ y.jid ∨ 1 ≤ y.pid := by
                    intro y hy
                    rw [hj] at hy
                    cases hy
                    exact hlive
                  simp only [hj] at hb
                  split at hb
                  · simp only [Prod.mk.injEq, Outcome.ret.injEq] at hb
                    rw [← hb.1.2.1]
                    exact ⟨slotConsistent_setState BG (Or.inr (Or.inl rfl)) i t.jobs ih.1 hlive1,
                      ih.2⟩
                  · simp only [Prod.mk.injEq, Outcome.ret.injEq] at hb
                    rw [← hb.1.2.1]
                    exact ⟨slotConsistent_setState FG (Or.inl rfl) i t.jobs ih.1 hlive1, ih.2⟩
            · simp only [Prod.mk.injEq, Outcome.ret.injEq] at hb
              rw [← hb.1.2.1]
              exact ih
  | reap t t1 pid status out hreach hr ih =>
    cases status with
    | signaled sig =>
      simp only [reapOne, Prod.mk.injEq, Outcome.ret.injEq] at hr
      rw [← hr.1]
      exact tableReach_del_inv t pid ih
    | exited code =>
      simp only [reapOne, Prod.mk.injEq, Outcome.ret.injEq] at hr
      rw [← hr.1]
      exact tableReach_del_inv t pid ih
    | other =>
      simp only [reapOne, Prod.mk.injEq, Outcome.ret.injEq] at hr
      rw [← hr.1]
      exact ih
    | stopped sig =>
      cases hg : getjobpid t.jobs pid with
      | none => simp [reapOne, hg] at hr
      | some i =>
        simp only [reapOne, hg, Prod.mk.injEq, Outcome.ret.injEq] at hr
        rw [← hr.1]
        obtain ⟨j, hj, hpid⟩ := getjobpid_some t.jobs pid i hg
        refine ⟨slotConsistent_setState ST (Or.inr (Or.inr rfl)) i t.jobs ih.1 ?_, ih.2⟩
        intro y hy
        rw [hj] at hy
        cases hy
        exact Or.inr hpid

/-- C20. In every job table built from `initjobs` by `addjob` with state `FG`
or `BG`, `deletejob`, the built-in commands (`bg` and `fg` writing the state
of the job they found) and the reaper (`deletejob`, or state `ST` for the job
it found), each slot is empty (`pid = 0`, `jid = 0`, `UNDEF`, empty command
line) or live (`pid` and `jid` at least 1, state `FG`, `BG` or `ST`), `nextjid`
is at least 1, and a slot that `getjobpid` or `getjobjid` returns is live. -/
theorem slot_consistency (t : JobTable) (h : TableReach t) :
    (∀ j ∈ t.jobs, SlotConsistent j) ∧
    1 ≤ t.nextjid ∧
    (∀ (pid : Int) (i : Nat), getjobpid t.jobs pid = some i →
      ∃ j, t.jobs[i]? = some j ∧ 1 ≤ j.pid ∧ 1 ≤ j.jid ∧
        (j.state = FG ∨ j.state = BG ∨ j.state = ST)) ∧
    (∀ (jid : Int) (i : Nat), getjobjid t.jobs jid = some i →
      ∃ j, t.jobs[i]? = some j ∧ 1 ≤ j.pid ∧ 1 ≤ j.jid ∧
        (j.state = FG ∨ j.state = BG ∨ j.state = ST)) := by
  obtain ⟨hslots, hnext⟩ := tableReach_inv t h
  refine ⟨?_, hnext, ?_, ?_⟩
  · intro j hj
    obtain ⟨k, hk⟩ := List.mem_iff_getElem?.1 hj
    exact hslots k j hk
  · intro pid i hg
    obtain ⟨j, hj, hpid⟩ := getjobpid_some t.jobs pid i hg
    rcases hslots i j hj with ⟨h0, _⟩ | hlive
    · omega
    · exact ⟨j, hj, hlive⟩
  · intro jid i hg
    obtain ⟨j, hj, hjid⟩ := getjobjid_some t.jobs jid i hg
    rcases hslots i j hj with ⟨_, h0, _⟩ | hlive
    · omega
    · exact ⟨j, hj, hlive⟩

theorem slot_consistency_witness :
    TableReach resumedTable ∧
    (∀ j ∈ resumedTable.jobs, SlotConsistent j) ∧
    1 ≤ resumedTable.nextjid ∧
    (∀ (pid : Int) (i : Nat), getjobpid resumedTable.jobs pid = some i →
      ∃ j, resumedTable.jobs[i]? = some j ∧ 1 ≤ j.pid ∧ 1 ≤ j.jid ∧
        (j.state = FG ∨ j.state = BG ∨ j.state = ST)) ∧
    (∀ (jid : Int) (i : Nat), getjobjid resumedTable.jobs jid = some i →
      ∃ j, resumedTable.jobs[i]? = some j ∧ 1 ≤ j.pid ∧ 1 ≤ j.jid ∧
        (j.state = FG ∨ j.state = BG ∨ j.state = ST)) := by
  have h0 : TableReach initial :=
    TableReach.init (List.replicate MAXJOBS { pid := 0, jid := 0, state := 0, cmdline := "" })
  have h1 : TableReach launchedTable :=
    TableReach.add false initial 5 FG "/bin/ls\n" h0 (Or.inl rfl)
  have h2 : TableReach stoppedTable :=
    TableReach.reap launchedTable stoppedTable 5 (Status.stopped 20)
      [Action.print "Job [1] (5) stopped by signal 20\n"] h1 (by decide)
  have h3 : TableReach resumedTable :=
    TableReach.builtin stoppedTable resumedTable ["fg", "%1"] 1 (Ctl.waiting 0 5)
      [Action.kill (-5) Sig.SIGCONT] h2 (by decide)
  exact ⟨h3, slot_consistency resumedTable h3⟩

/-! ## The background flag of parseline -/

theorem strchr_space_word (w rest : List Char) (hw : w.contains ' ' = false) :
    strchr ' ' (w ++ ' ' :: rest) = some (w, rest) := by
  induction w with
  | nil => simp [strchr]
  | cons c cs ih =>
    simp only [List.contains_cons, Bool.or_eq_false_iff, beq_eq_false_iff_ne, ne_eq] at hw
    have hc : ¬ c = ' ' := fun h => hw.1 h.symm
    simp [strchr, hc, ih hw.2]

theorem skipSpaces_replicate (k : Nat) (rest : List Char) :
    skipSpaces (List.replicate k ' ' ++ rest) = skipSpaces rest := by
  induction k with
  | zero => rfl
  | succ k ih => simp [List.replicate_succ, skipSpaces, ih]

theorem isWord_iff (w : List Char) (h : isWord w = true) :
    ∃ c cs, w = c :: cs ∧ c ≠ ' ' ∧ c.toNat ≠ 39 ∧ w.contains ' ' = false := by
  cases w with
  | nil => simp [isWord] at h
  | cons c cs =>
    simp only [isWord, List.isEmpty_cons, Bool.not_false, Bool.true_and, List.head?_cons,
      Bool.and_eq_true, Bool.not_eq_true', bne_iff_ne, ne_eq, Option.some.injEq] at h
    obtain ⟨hsp, hq⟩ := h
    refine ⟨c, cs, rfl, ?_, ?_, hsp⟩
    · intro hc
      subst hc
      simp at hsp
    · intro hc
      apply hq
      rw [← Char.ofNat_toNat c, hc]

theorem skipSpaces_wordsBuf (items : List (List Char × Nat))
    (hwords : ∀ it ∈ items, isWord it.1 = true) : skipSpaces (wordsBuf items) = wordsBuf items := by
  cases items with
  | nil => rfl
  | cons it rest =>
    obtain ⟨w, k⟩ := it
    obtain ⟨c, cs, hw, hc, _, _⟩ := isWord_iff w (hwords (w, k) (List.mem_cons_self _ _))
    subst hw
    simp [wordsBuf, skipSpaces, hc]

theorem parseArgs_wordsBuf (items : List (List Char × Nat))
    (hwords : ∀ it ∈ items, isWord it.1 = true) (fuel : Nat) (hfuel : items.length ≤ fuel) :
    parseArgs fuel (wordsBuf items) = items.map (fun it => String.mk it.1) := by
  induction items generalizing fuel with
  | nil =>
    cases fuel with
    | zero => rfl
    | succ f => simp [parseArgs, wordsBuf, findDelim, strchr]
  | cons it rest ih =>
    obtain ⟨w, k⟩ := it
    have hrest : ∀ it ∈ rest, isWord it.1 = true :=
      fun it hit => hwords it (List.mem_cons_of_mem _ hit)
    obtain ⟨c, cs, hw, _, hq, hsp⟩ := isWord_iff w (hwords (w, k) (List.mem_cons_self _ _))
    cases fuel with
    | zero => simp at hfuel
    | succ f =>
      have hdelim : findDelim (wordsBuf ((w, k) :: rest))
          = some (w, List.replicate k ' ' ++ wordsBuf rest) := by
        have := strchr_space_word w (List.replicate k ' ' ++ wordsBuf rest) hsp
        subst hw
        simp only [wordsBuf, List.cons_append, findDelim, hq, if_false]
        simpa using this
      simp only [parseArgs, hdelim, List.map_cons, skipSpaces_replicate,
        skipSpaces_wordsBuf rest hrest]
      rw [ih hrest f (by simpa using hfuel)]

theorem wordsBuf_ends_with_space (items : List (List Char × Nat)) (hne : items ≠ []) :
    ∃ front, wordsBuf items = front ++ [' '] := by
  induction items with
  | nil => exact absurd rfl hne
  | cons it rest ih =>
    obtain ⟨w, k⟩ := it
    cases rest with
    | nil =>
      cases k with
      | zero => exact ⟨w, by simp [wordsBuf]⟩
      | succ k =>
        refine ⟨w ++ ' ' :: List.replicate k ' ', ?_⟩
        simp [wordsBuf, List.replicate_succ']
    | cons it2 rest2 =>
      obtain ⟨front, hfront⟩ := ih (by simp)
      refine ⟨w ++ ' ' :: (List.replicate k ' ' ++ front), ?_⟩
      simp only [wordsBuf] at hfront ⊢
      rw [hfront]
      simp

theorem length_wordsBuf (items : List (List Char × Nat)) :
    items.length ≤ (wordsBuf items).length := by
  induction items with
  | nil => simp
  | cons it rest ih =>
    obtain ⟨w, k⟩ := it
    simp only [wordsBuf, List.length_cons, List.length_append, List.length_replicate]
    omega

theorem wordLine_buf (lead : Nat) (items : List (List Char × Nat)) (hne : items ≠ []) :
    (wordLine lead items).data.dropLast ++ [' '] = List.replicate lead ' ' ++ wordsBuf items := by
  obtain ⟨front, hfront⟩ := wordsBuf_ends_with_space items hne
  simp only [wordLine, hfront, ← List.append_assoc, List.dropLast_concat]

/-- C17, counterexample. The last argument of `/bin/ls &x` is `&x`, not the
word `&`; `parseline` returns true and removes it from `argv`. -/
theorem parseline_ampersand_prefix :
    parseline "/bin/ls &x\n" = (true, ["/bin/ls"]) := by
  decide

/-- C17, amended. When the loop of `parseline` has stored at least one
argument, `parseline` returns true and removes the last argument exactly when
that argument begins with `&`, and returns false with every argument left in
`argv` otherwise.  For a line of words (no space inside, no single quote in
front) separated by spaces and ended by a newline, the arguments are the
words, so the flag is whether the last word begins with `&`. -/
theorem parseline_background_flag :
    (∀ (cmdline last : String),
      (parseArgs ((skipSpaces (cmdline.data.dropLast ++ [' '])).length + 1)
          (skipSpaces (cmdline.data.dropLast ++ [' ']))).getLast? = some last →
      parseline cmdline
        = if last.data.head? = some '&' then
            (true, (parseArgs ((skipSpaces (cmdline.data.dropLast ++ [' '])).length + 1)
              (skipSpaces (cmdline.data.dropLast ++ [' ']))).dropLast)
          else
            (false, parseArgs ((skipSpaces (cmdline.data.dropLast ++ [' '])).length + 1)
              (skipSpaces (cmdline.data.dropLast ++ [' '])))) ∧
    (∀ (lead : Nat) (items : List (List Char × Nat)) (last : List Char × Nat),
      (∀ it ∈ items, isWord it.1 = true) → items.getLast? = some last →
      parseline (wordLine lead items)
        = if last.1.head? = some '&' then
            (true, (items.map (fun it => String.mk it.1)).dropLast)
          else (false, items.map (fun it => String.mk it.1))) := by
  constructor
  · intro cmdline last hlast
    simp only [parseline, hlast]
  · intro lead items last hwords hlast
    have hne : items ≠ [] := by
      intro h
      simp [h] at hlast
    have hbuf : skipSpaces ((wordLine lead items).data.dropLast ++ [' ']) = wordsBuf items := by
      rw [wordLine_buf lead items hne, skipSpaces_replicate, skipSpaces_wordsBuf items hwords]
    have hargs := parseArgs_wordsBuf items hwords ((wordsBuf items).length + 1)
      (Nat.le_succ_of_le (length_wordsBuf items))
    have hl : (items.map (fun it => String.mk it.1)).getLast? = some (String.mk last.1) := by
      rw [List.getLast?_map, hlast]
      rfl
    simp only [parseline, hbuf, hargs, hl]

theorem parseline_background_flag_witness :
    parseline (wordLine 1 [("/bin/sleep".data, 1), ("5".data, 0), ("&".data, 0)])
      = (true, ["/bin/sleep", "5"]) ∧
    parseline "'a b' c\n" = (false, ["a b", "c"]) := by
  have h1 := parseline_background_flag.2 1 [("/bin/sleep".data, 1), ("5".data, 0), ("&".data, 0)]
    ("&".data, 0) (by decide) (by decide)
  have h2 := parseline_background_flag.1 "'a b' c\n" "c" (by decide)
  constructor
  · rw [h1]
    decide
  · rw [h2]
    decide

/-! ## bg and fg on a jid that two live jobs carry -/

/-- C12. A reachable table on which `bg %1` and `fg %1` act on another job
than the one named.  After fifteen background launches, the exit of child 2
and the launches of children 16 and 17, the jobs of pid 1 (slot 0) and of pid
17 (slot 15) are both live with jid 1; the reaper reports
`Job [1] (17) stopped by signal 20`.  For the target `%1`, the jid of the
stopped live job of pid 17, `builtin_cmd` resolves the job of pid 1: `bg`
announces `[1] (1)` and sends `SIGCONT` to `-1`, `fg` sends `SIGCONT` to `-1`
and waits on pid 1, and the job of pid 17 keeps state `ST` and gets no signal. -/
theorem bg_fg_jid_resolves_other_job :
    Reach false dupJidTable Ctl.done ∧
    dupJidTable.jobs[0]? = some { pid := 1, jid := 1, state := BG, cmdline := "a &\n" } ∧
    dupJidTable.jobs[15]? = some { pid := 17, jid := 1, state := ST, cmdline := "a &\n" } ∧
    atoi ("%1".data.drop 1) = 1 ∧
    builtin_cmd dupJidTable ["bg", "%1"]
      = (Outcome.ret (1, dupJidTable, Ctl.done),
          [Action.print "[1] (1) a &\n", Action.kill (-1) Sig.SIGCONT]) ∧
    builtin_cmd dupJidTable ["fg", "%1"]
      = (Outcome.ret
          (1, { dupJidTable with
                jobs := updateSlot (fun x => { x with state := FG }) 0 dupJidTable.jobs },
            Ctl.waiting 0 1),
          [Action.kill (-1) Sig.SIGCONT]) ∧
    (updateSlot (fun x => { x with state := FG }) 0 dupJidTable.jobs)[15]?
      = some { pid := 17, jid := 1, state := ST, cmdline := "a &\n" } := by
  have h1 : Reach false
      (run false initial (bgLaunchOps ((List.range 15).map (fun n => (n : Int) + 1)))) Ctl.done :=
    reach_bgLaunchOps false _ initial Reach.init (by decide)
  have h2 : Reach false
      (deletejob (run false initial (bgLaunchOps ((List.range 15).map (fun n => (n : Int) + 1))))
        2).2 Ctl.done :=
    Reach.reap _ _ Ctl.done [(2, Status.exited 0)] [] h1 (by decide)
  have h3 : Reach false wrappedTable Ctl.done :=
    reach_bgLaunchOps false [16, 17] _ h2 (by decide)
  have h4 : Reach false dupJidTable Ctl.done :=
    Reach.reap wrappedTable dupJidTable Ctl.done [(17, Status.stopped 20)]
      [Action.print "Job [1] (17) stopped by signal 20\n"] h3 (by decide)
  exact ⟨h4, by decide, by decide, by decide, by decide, by decide, by decide⟩

end Tsh
